import Mathlib

/-!
# Verification of the critters-rs critical-CSS extraction engine

Shallow embedding of the core data structures and algorithms of the
critters-rs repository (`src/lib.rs`, `src/utils.rs`, `src/html/filter.rs`,
`src/html/attributes.rs`, `src/html/style_calculation.rs`, `src/html/select.rs`)
together with proofs and refutations of the specified properties.

Conventions:
* machine integers are modelled as `Nat` (with explicit bounds where overflow
  or bit-packing matters);
* Rust `HashSet`s that are only ever queried through `contains` are modelled
  as lists (membership-equivalent);
* the counting bloom filter of the external `selectors` crate is modelled
  from the spec as a multiset of inserted hashes (the counter of a hash `h`
  is the multiplicity of `h`);
* fallible operations return `Option`/`Except`.
-/

namespace Critters

/-! ## Definitions -/

/-! ### Ancestor bloom filter (`src/html/filter.rs`)

`StyleBloom` is translated from `src/html/filter.rs`.  The underlying
`selectors::bloom::BloomFilter` is an external collaborator; following the
spec ("a bloom filter whose buckets are small counters, supporting insert and
remove without reconstruction") it is modelled as a `Multiset Nat`:
`insert_hash` adds one occurrence, `remove_hash` removes one, and the counter
of `h` is `Multiset.count h`. -/

/-- State of `StyleBloom` (`src/html/filter.rs:14-23`): the counting filter,
the stack of pushed elements with the number of hashes pushed for each, and
the stack of pushed hashes. -/
@[ext]
structure StyleBloom (α : Type) where
  filter : Multiset Nat
  elements : List (α × Nat)
  pushedHashes : List Nat
deriving DecidableEq

/-- `StyleBloom::new` (`src/html/filter.rs:76-82`). -/
def StyleBloom.empty (α : Type) : StyleBloom α := ⟨0, [], []⟩

/-- `StyleBloom::push_internal` (`src/html/filter.rs:105-116`): insert every
relevant hash of the element into the filter, record each on the pushed-hash
stack (so the most recently pushed hash is on top), and push an element frame
carrying the number of hashes pushed. -/
def StyleBloom.push {α : Type} (hashes : α → List Nat) (e : α)
    (b : StyleBloom α) : StyleBloom α :=
  let hs := hashes e
  { filter := b.filter + (hs : Multiset Nat)
    elements := (e, hs.length) :: b.elements
    pushedHashes := hs.reverse ++ b.pushedHashes }

/-- `StyleBloom::pop` (`src/html/filter.rs:120-139`): pop the top element
frame (returning `none` on an empty stack, leaving the state unchanged), then
pop exactly `num_hashes` hashes off the pushed-hash stack, removing each from
the filter. -/
def StyleBloom.pop {α : Type} (b : StyleBloom α) :
    Option (α × StyleBloom α) :=
  match b.elements with
  | [] => none
  | (e, n) :: rest =>
      some (e,
        { filter := b.filter - ((b.pushedHashes.take n : List Nat) : Multiset Nat)
          elements := rest
          pushedHashes := b.pushedHashes.drop n })

/-- `traversal_depth` (`src/html/filter.rs:90-92`). -/
def StyleBloom.depth {α : Type} (b : StyleBloom α) : Nat := b.elements.length

/-- Probe of the counting filter: a hash may be contained iff its counter is
positive. -/
def StyleBloom.mayContain {α : Type} (b : StyleBloom α) (h : Nat) : Bool :=
  decide (0 < b.filter.count h)

/-- A push or pop step of a bloom-filter traversal. -/
inductive BloomOp (α : Type) where
  | push (e : α)
  | pop
deriving DecidableEq

/-- One step of a traversal: `push` pushes the element, `pop` pops the top
frame (a pop on an empty stack leaves the state unchanged, as
`self.elements.pop()?` does). -/
def StyleBloom.step {α : Type} (hashes : α → List Nat)
    (b : StyleBloom α) : BloomOp α → StyleBloom α
  | .push e => b.push hashes e
  | .pop =>
      match b.pop with
      | none => b
      | some (_, b') => b'

/-- Run a sequence of push/pop operations from the empty filter. -/
def StyleBloom.run {α : Type} (hashes : α → List Nat)
    (ops : List (BloomOp α)) : StyleBloom α :=
  ops.foldl (StyleBloom.step hashes) (StyleBloom.empty α)

/-- Well-formedness invariant of a `StyleBloom` state: the filter holds
exactly the multiset of hashes on the pushed-hash stack, and the pushed-hash
stack length is the sum of the per-frame hash counts. -/
def StyleBloom.WF {α : Type} (b : StyleBloom α) : Prop :=
  b.filter = (b.pushedHashes : Multiset Nat) ∧
    b.pushedHashes.length = (b.elements.map Prod.snd).sum

/-! ### Rule identity (`src/utils.rs`) -/

/-- A source location of a style rule (`lightningcss` `Location`): all three
components are `u32` values in the source. -/
structure SLoc where
  sourceIndex : Nat
  line : Nat
  column : Nat
deriving DecidableEq

/-- `StyleRuleExt::id` (`src/utils.rs:30-40`): pack `(source_index, line,
column)` into a single `u128` value with `packed |= source_index << 64;
packed |= line << 32; packed |= column`.  For in-range (`< 2^32`) components
the result is below `2^128`, so plain `Nat` arithmetic is faithful to `u128`. -/
def ruleId (loc : SLoc) : Nat :=
  (loc.sourceIndex <<< 64) ||| (loc.line <<< 32) ||| loc.column

/-! ### Attribute maps (`src/html/attributes.rs`) -/

/-- `ExpandedName` (`src/html/attributes.rs:54-59`): namespace URL plus local
name.  The null namespace is the empty string. -/
structure ExpandedName where
  ns : String
  localName : String
deriving DecidableEq

/-- The non-identifying parts of an attribute
(`src/html/attributes.rs:73-78`). -/
structure RAttribute where
  pfx : Option String
  value : String
deriving DecidableEq

/-- `IndexMap::insert` on an insertion-ordered association list: replace the
value in place if the key is present, otherwise append at the end. -/
def imInsert (m : List (ExpandedName × RAttribute)) (k : ExpandedName)
    (v : RAttribute) : List (ExpandedName × RAttribute) :=
  match m with
  | [] => [(k, v)]
  | (k', v') :: rest =>
      if k' = k then (k', v) :: rest else (k', v') :: imInsert rest k v

/-- `IndexMap::get` on the association list. -/
def imGet (m : List (ExpandedName × RAttribute)) (k : ExpandedName) :
    Option RAttribute :=
  (m.find? (fun e => e.1 = k)).map (·.2)

/-- `IndexMap::swap_remove`: remove the entry with the given key by swapping
it with the last entry and popping (order-disturbing removal); a missing key
leaves the map unchanged. -/
def imSwapRemove (m : List (ExpandedName × RAttribute)) (k : ExpandedName) :
    List (ExpandedName × RAttribute) :=
  match m.findIdx? (fun e => e.1 = k) with
  | none => m
  | some i =>
      match m.getLast? with
      | none => []
      | some lastE => (m.set i lastE).dropLast

/-- `SELECTOR_WHITESPACE` of the `selectors` crate: the five CSS whitespace
characters used by `Attributes::new` to split the `class` attribute. -/
def selectorWhitespace : List Char := [' ', '\t', '\n', '\r', '\x0C']

/-- The splitting behaviour of Rust's `str::split` with a list of separator
characters: empty pieces between consecutive separators (and at the ends)
are kept; the empty string yields `[""]`. -/
def splitCharsAux (seps : List Char) : List Char → List Char → List String
  | [], cur => [String.mk cur.reverse]
  | c :: rest, cur =>
      if seps.contains c then
        String.mk cur.reverse :: splitCharsAux seps rest []
      else
        splitCharsAux seps rest (c :: cur)

/-- Rust `value.split(SELECTOR_WHITESPACE)` over a string. -/
def rustSplit (seps : List Char) (s : String) : List String :=
  splitCharsAux seps s.data []

/-- The class list computed by `Attributes::new`
(`src/html/attributes.rs:20-31`): whitespace-split tokens of the `class`
attribute in the null namespace (empty list when the attribute is absent). -/
def classListOfMap (m : List (ExpandedName × RAttribute)) : List String :=
  match imGet m ⟨"", "class"⟩ with
  | some a => rustSplit selectorWhitespace a.value
  | none => []

/-- `Attributes` (`src/html/attributes.rs:7-12`): the precomputed class list
plus the insertion-ordered attribute map. -/
structure Attributes where
  class_list : List String
  map : List (ExpandedName × RAttribute)
deriving DecidableEq

/-- `Attributes::new` (`src/html/attributes.rs:15-34`): collect the attribute
pairs into the map, then compute the class list from the `class` attribute in
the null namespace. -/
def Attributes.new (attrs : List (ExpandedName × RAttribute)) : Attributes :=
  let map := attrs.foldl (fun m e => imInsert m e.1 e.2) []
  { class_list := classListOfMap map, map := map }

/-- `Attributes::insert` (`src/html/attributes.rs:109-121`): insert an
attribute in the null namespace with no prefix.  The class list is not
touched. -/
def Attributes.insert (a : Attributes) (localName : String) (value : String) :
    Attributes :=
  { a with map := imInsert a.map ⟨"", localName⟩ ⟨none, value⟩ }

/-- `Attributes::remove` (`src/html/attributes.rs:124-126`): `swap_remove` of
the attribute in the null namespace.  The class list is not touched. -/
def Attributes.remove (a : Attributes) (localName : String) : Attributes :=
  { a with map := imSwapRemove a.map ⟨"", localName⟩ }

/-- A mutation of an attribute map through the public API. -/
inductive AttrOp where
  | insert (localName value : String)
  | remove (localName : String)

/-- Apply a sequence of `insert`/`remove` mutations. -/
def Attributes.applyOps (a : Attributes) (ops : List AttrOp) : Attributes :=
  ops.foldl
    (fun a op =>
      match op with
      | .insert n v => a.insert n v
      | .remove n => a.remove n) a

/-! ### DOM view

Modelled from the spec: the DOM tree type lives in `src/html/tree.rs`, which
is not part of the sources; per the spec (§3, §4.1) elements carry a
qualified name (namespace + local name), an ordered attribute map and a
precomputed class list, ordered children, and parent/sibling links.  Only
element nodes matter for selector matching (the traversal in
`style_calculation.rs` filters to element refs), so the tree holds elements
only.  An element-in-context is a zipper `Loc`: the element's subtree plus
the stack of parent frames (parent data and the element's preceding /
following sibling subtrees). -/

/-- The element data relevant to matching: whether the qualified name is in
the HTML namespace, the local name, the attribute map of the null namespace
(name/value pairs in order) and the precomputed class list. -/
structure ElemData where
  nsHtml : Bool
  localName : String
  attrs : List (String × String)
  classList : List String
deriving DecidableEq

/-- `attributes.get("id")`. -/
def ElemData.idAttr (d : ElemData) : Option String :=
  (d.attrs.find? (fun a => a.1 == "id")).map (·.2)

/-- An element tree: element data plus ordered element children. -/
inductive DomTree where
  | node (data : ElemData) (children : List DomTree)

/-- The data at the root of a tree. -/
def DomTree.data : DomTree → ElemData
  | .node d _ => d

/-- The children of the root of a tree. -/
def DomTree.children : DomTree → List DomTree
  | .node _ cs => cs

/-- A parent frame of a zipper: the parent's data, the preceding siblings
(nearest first) and the following siblings (in order). -/
structure Frame where
  data : ElemData
  before : List DomTree
  after : List DomTree

/-- An element in context: its subtree plus the stack of parent frames
(innermost first). -/
structure Loc where
  tree : DomTree
  path : List Frame

/-- The data of the element at a location. -/
def Loc.data (l : Loc) : ElemData := l.tree.data

/-- The parent element location, reconstructed from the top frame. -/
def Loc.parent? : Loc → Option Loc
  | ⟨_, []⟩ => none
  | ⟨t, f :: rest⟩ =>
      some ⟨DomTree.node f.data (f.before.reverse ++ t :: f.after), rest⟩

/-- The ancestor chain of a location, nearest first. -/
def ancestorLocs (l : Loc) : List Loc :=
  match l with
  | ⟨_, []⟩ => []
  | ⟨t, f :: rest⟩ =>
      let p : Loc := ⟨DomTree.node f.data (f.before.reverse ++ t :: f.after), rest⟩
      p :: ancestorLocs p
termination_by l.path.length

/-- The ancestor chain of a location, root first. -/
def ancestorPath (l : Loc) : List Loc := (ancestorLocs l).reverse

/-- The immediately preceding sibling element, if any. -/
def Loc.prevSib? : Loc → Option Loc
  | ⟨t, ⟨d, (e :: b'), a⟩ :: rest⟩ => some ⟨e, ⟨d, b', t :: a⟩ :: rest⟩
  | _ => none

/-- All preceding sibling elements, nearest first. -/
def earlierSibLocs (l : Loc) : List Loc :=
  match h : l.prevSib? with
  | none => []
  | some p => p :: earlierSibLocs p
termination_by (match l.path with | [] => 0 | f :: _ => f.before.length)
decreasing_by
  obtain ⟨t, path⟩ := l
  rcases path with _ | ⟨⟨d, before, after⟩, rest⟩
  · simp [Loc.prevSib?] at h
  · rcases before with _ | ⟨e, b'⟩
    · simp [Loc.prevSib?] at h
    · simp only [Loc.prevSib?] at h
      cases h
      simp

/-- The child locations of an element, in order; helper carrying the already
passed children reversed. -/
def splitsAux (d : ElemData) (path : List Frame) :
    List DomTree → List DomTree → List Loc
  | _, [] => []
  | before, c :: after =>
      ⟨c, ⟨d, before, after⟩ :: path⟩ :: splitsAux d path (c :: before) after

/-- The child element locations of a location, in document order. -/
def childLocs (l : Loc) : List Loc :=
  splitsAux l.tree.data l.path [] l.tree.children

mutual

/-- All element locations of a subtree given its context path (the root of
the subtree first, then the subtrees of its children in order). -/
def subtreeLocsT : DomTree → List Frame → List Loc
  | .node d cs, path => ⟨.node d cs, path⟩ :: subtreeLocsL d path [] cs

/-- Locations of a list of consecutive children (with the preceding children
accumulated in reverse) and of their subtrees. -/
def subtreeLocsL (d : ElemData) (path : List Frame) :
    List DomTree → List DomTree → List Loc
  | _, [] => []
  | before, c :: after =>
      subtreeLocsT c (⟨d, before, after⟩ :: path)
        ++ subtreeLocsL d path (c :: before) after

end

/-- All element locations of the subtree rooted at a location. -/
def subtreeLocs (l : Loc) : List Loc :=
  subtreeLocsT l.tree l.path

/-! ### Selector engine

Modelled from the spec: selector parsing and matching live in the external
`selectors` crate (spec §4.2 fixes the interface and semantics).  A selector
is a sequence of compound selectors separated by combinators, stored in
matching order: `first` is the rightmost compound (simple selectors in parse
order) and `rest` walks leftward, each entry pairing the combinator with the
next compound.  The modelled simple selectors are type (`name` as written
plus its lowercased form, compared case-insensitively only for HTML elements),
universal, id, class and attribute-presence selectors; matching a list of
selectors is matching any. -/

/-- A simple selector component. -/
inductive SimpleSel where
  | universal
  | tag (name lower : String)
  | id (s : String)
  | cls (s : String)
  | attrExists (name : String)
deriving DecidableEq

/-- A combinator between compound selectors. -/
inductive Comb where
  | descendant
  | child
  | nextSibling
  | laterSibling
deriving DecidableEq

/-- A complex selector in matching order: rightmost compound first. -/
structure Selector where
  first : List SimpleSel
  rest : List (Comb × List SimpleSel)
deriving DecidableEq

/-- Matching of one simple selector against the element at a location,
following the `selectors::Element` implementation in `src/html/select.rs`:
type selectors compare the lowercased name for HTML elements and the written
name otherwise; id compares `attributes.get("id")` case-sensitively; class
requires a non-empty name contained in the precomputed class list
(`has_class`, `src/html/select.rs:261-264` and
`src/html/attributes.rs:37-44`); attribute presence checks the null-namespace
attribute map. -/
def matchesSimple (l : Loc) : SimpleSel → Bool
  | .universal => true
  | .tag name lower =>
      if (Loc.data l).nsHtml then (Loc.data l).localName == lower
      else (Loc.data l).localName == name
  | .id s => (Loc.data l).idAttr == some s
  | .cls s => !(s == "") && (Loc.data l).classList.contains s
  | .attrExists n => (Loc.data l).attrs.any (fun a => a.1 == n)

/-- Matching of a compound selector: all simple selectors match. -/
def matchesCompound (comp : List SimpleSel) (l : Loc) : Bool :=
  comp.all (matchesSimple l)

/-- Matching of the leftward part of a selector starting from a location:
`child` moves to the parent, `descendant` to any ancestor, `nextSibling` to
the immediately preceding sibling, `laterSibling` to any preceding sibling. -/
def matchesRest : List (Comb × List SimpleSel) → Loc → Bool
  | [], _ => true
  | (c, comp) :: rs, l =>
      match c with
      | .child =>
          match l.parent? with
          | none => false
          | some p => matchesCompound comp p && matchesRest rs p
      | .descendant =>
          (ancestorLocs l).any fun p => matchesCompound comp p && matchesRest rs p
      | .nextSibling =>
          match l.prevSib? with
          | none => false
          | some p => matchesCompound comp p && matchesRest rs p
      | .laterSibling =>
          (earlierSibLocs l).any fun p => matchesCompound comp p && matchesRest rs p

/-- Whole-selector matching at a location. -/
def Selector.matchesLoc (sel : Selector) (l : Loc) : Bool :=
  matchesCompound sel.first l && matchesRest sel.rest l

/-- The hash contributed by a simple selector to the ancestor hashes
(`Component::ancestor_hash` of the `selectors` crate): type selectors
contribute the hash of the lowercased name, but only when it equals the name
as written; id and class selectors contribute the hash of their string. -/
def simpleAncestorHash (hsh : String → Nat) : SimpleSel → Option Nat
  | .tag name lower => if name == lower then some (hsh lower) else none
  | .id s => some (hsh s)
  | .cls s => some (hsh s)
  | _ => none

/-- The compounds of a selector in ancestor position: a compound is included
exactly when the combinator attaching it on its right is `child` or
`descendant` (`AncestorIter` of the `selectors` crate skips compounds
attached through sibling combinators). -/
def ancestorCompounds (rest : List (Comb × List SimpleSel)) :
    List (List SimpleSel) :=
  rest.filterMap fun e =>
    match e.1 with
    | .child => some e.2
    | .descendant => some e.2
    | _ => none

/-- The ancestor hashes of a selector: the first four hashes contributed by
simple selectors in ancestor-position compounds, rightmost compound first
(spec §3: "up to four hashes of simple selectors appearing in ancestor
positions"). -/
def ancestorHashes (hsh : String → Nat) (sel : Selector) : List Nat :=
  ((ancestorCompounds sel.rest).flatMap
    (fun comp => comp.filterMap (simpleAncestorHash hsh))).take 4

/-- The relevant element hashes pushed into the bloom filter
(`each_relevant_element_hash`, `src/html/filter.rs:43-66`): the local-name
hash, the namespace hash, the id hash (if any), each class hash, and each
attribute-name hash except `class`, `id` and `style`. -/
def relevantHashes (hsh : String → Nat) (d : ElemData) : List Nat :=
  [hsh d.localName,
   hsh (if d.nsHtml then "http://www.w3.org/1999/xhtml" else "")]
  ++ (match d.idAttr with | some i => [hsh i] | none => [])
  ++ d.classList.map hsh
  ++ ((d.attrs.map (·.1)).filter
        (fun n => !(n == "class" || n == "id" || n == "style"))).map hsh

/-! ### Rule set index (`src/html/style_calculation.rs`) -/

/-- A rule: a selector plus its precomputed ancestor hashes
(`src/html/style_calculation.rs:15-29`). -/
structure Rule where
  selector : Selector
  hashes : List Nat
deriving DecidableEq

/-- `Rule::new` (`src/html/style_calculation.rs:25-28`). -/
def mkRule (hsh : String → Nat) (sel : Selector) : Rule :=
  ⟨sel, ancestorHashes hsh sel⟩

/-- The key-selector classification
(`src/html/style_calculation.rs:160-166`). -/
inductive KeySelector where
  | id (s : String)
  | cls (s : String)
  | tag (s : String)
  | universal
deriving DecidableEq

/-- `RuleSet::extract_key_selector`
(`src/html/style_calculation.rs:89-108`): inspect the last simple selector
of the rightmost compound (`selector.iter().last()`); an id buckets by the
id string, a class by the class name, a type selector by its lowercased
name, and anything else (or an empty compound) falls back to universal. -/
def extract_key_selector (sel : Selector) : KeySelector :=
  match sel.first.getLast? with
  | some (.id s) => .id s
  | some (.cls s) => .cls s
  | some (.tag _ lower) => .tag lower
  | _ => .universal

/-- `RuleSet` (`src/html/style_calculation.rs:47-59`): the four buckets plus
the rule count.  The hash maps are modelled as total functions defaulting to
the empty bucket. -/
structure RuleSet where
  id_rules : String → List Rule
  class_rules : String → List Rule
  tag_rules : String → List Rule
  universal_rules : List Rule
  rule_count : Nat

/-- `RuleSet::new` (`src/html/style_calculation.rs:62-64`). -/
def RuleSet.new : RuleSet :=
  ⟨fun _ => [], fun _ => [], fun _ => [], [], 0⟩

/-- `RuleSet::add_rule` (`src/html/style_calculation.rs:68-87`): push the
rule onto the bucket chosen by its key selector and bump the count. -/
def RuleSet.add_rule (rs : RuleSet) (r : Rule) : RuleSet :=
  let rs' :=
    match extract_key_selector r.selector with
    | .id s =>
        { rs with id_rules := fun k =>
            if k = s then rs.id_rules k ++ [r] else rs.id_rules k }
    | .cls s =>
        { rs with class_rules := fun k =>
            if k = s then rs.class_rules k ++ [r] else rs.class_rules k }
    | .tag s =>
        { rs with tag_rules := fun k =>
            if k = s then rs.tag_rules k ++ [r] else rs.tag_rules k }
    | .universal =>
        { rs with universal_rules := rs.universal_rules ++ [r] }
  { rs' with rule_count := rs'.rule_count + 1 }

/-- `FromIterator<Rule> for RuleSet`
(`src/html/style_calculation.rs:148-158`). -/
def buildRuleSet (rules : List Rule) : RuleSet :=
  rules.foldl RuleSet.add_rule RuleSet.new

/-- `RuleSet::get_potential_rules`
(`src/html/style_calculation.rs:114-146`): all universal rules, then the id
bucket for the element's id (if any), then the class bucket of each class in
the precomputed class list, then the tag bucket for the element's local
name. -/
def RuleSet.get_potential_rules (rs : RuleSet) (d : ElemData) : List Rule :=
  rs.universal_rules
  ++ (match d.idAttr with | some i => rs.id_rules i | none => [])
  ++ (d.classList.flatMap fun c => rs.class_rules c)
  ++ rs.tag_rules d.localName

/-- Membership of a rule in a given bucket of a rule set. -/
def inBucket (rs : RuleSet) (k : KeySelector) (r : Rule) : Prop :=
  match k with
  | .id s => r ∈ rs.id_rules s
  | .cls s => r ∈ rs.class_rules s
  | .tag s => r ∈ rs.tag_rules s
  | .universal => r ∈ rs.universal_rules

/-- `matches_rule` (`src/html/style_calculation.rs:169-183` together with
`matches_selector` of the `selectors` crate): first probe every ancestor
hash of the rule against the bloom filter — any miss rejects — then run full
selector matching. -/
def matchesRule (l : Loc) (r : Rule) (b : StyleBloom ElemData) : Bool :=
  r.hashes.all (fun h => b.mayContain h) && r.selector.matchesLoc l

/-- The selectors of the potential rules that fully match the element
(`calculate_matching_rules`, `src/html/style_calculation.rs:190-205`; the
per-rule inserts into the result `HashSet` are collected as a `Finset` of
the matched selectors). -/
def matchingSelectors (rs : RuleSet) (l : Loc) (b : StyleBloom ElemData) :
    Finset Selector :=
  (((rs.get_potential_rules l.data).filter (fun r => matchesRule l r b)).map
    (·.selector)).toFinset

/-- `while bloom.traversal_depth() > depth { bloom.pop(); }`
(`src/html/style_calculation.rs:226-228`). -/
def popToDepth (d : Nat) (b : StyleBloom ElemData) : StyleBloom ElemData :=
  if d < b.elements.length then
    match h : b.pop with
    | none => b
    | some (_, b') => popToDepth d b'
  else b
termination_by b.elements.length
decreasing_by
  rcases b with ⟨f, els, p⟩
  cases els with
  | nil => simp [StyleBloom.pop] at h
  | cons hd tl =>
      obtain ⟨e, n⟩ := hd
      simp only [StyleBloom.pop] at h
      cases h
      simp

/-- The bloom filter obtained by pushing the elements of a path (root
first) onto the empty filter. -/
def pathBloom (hsh : String → Nat) (P : List Loc) : StyleBloom ElemData :=
  P.foldl
    (fun b a => b.push (relevantHashes hsh) (Loc.data a))
    (StyleBloom.empty ElemData)

/-- `StyleBloom::rebuild` (`src/html/filter.rs:149-161`): clear, then push
every ancestor of the element from the root down (the element itself is not
pushed). -/
def rebuildBloom (hsh : String → Nat) (l : Loc) : StyleBloom ElemData :=
  pathBloom hsh (ancestorPath l)

/-- The depth-first traversal of `calculate_styles_for_tree`
(`src/html/style_calculation.rs:224-242`): pop an `(element, depth)` pair
off the explicit stack, pop the bloom filter down to the recorded depth,
collect the matching rules, push the element onto the bloom filter, and push
the element children with the new depth (`Vec::extend` makes the last child
the next to be popped, hence the reversed prepend). -/
def traverse (hsh : String → Nat) (rs : RuleSet) (stack : List (Loc × Nat))
    (bloom : StyleBloom ElemData) (acc : Finset Selector) : Finset Selector :=
  match stack with
  | [] => acc
  | (l, depth) :: stk =>
      let bloom1 := popToDepth depth bloom
      let acc1 := acc ∪ matchingSelectors rs l bloom1
      let bloom2 := bloom1.push (relevantHashes hsh) (Loc.data l)
      let d2 := bloom2.elements.length
      traverse hsh rs ((childLocs l).reverse.map (fun c => (c, d2)) ++ stk)
        bloom2 acc1
termination_by (stack.map fun e => sizeOf e.1.tree).sum
decreasing_by
  have key : ∀ (rest before : List DomTree),
      ((splitsAux l.tree.data l.path before rest).map
        (fun c => sizeOf c.tree)).sum = (rest.map sizeOf).sum := by
    intro rest
    induction rest with
    | nil => intro before; simp [splitsAux]
    | cons c cTail ih => intro before; simp [splitsAux, ih]
  have listLt : ∀ cs : List DomTree, (cs.map sizeOf).sum < sizeOf cs := by
    intro cs
    induction cs with
    | nil => simp
    | cons c cTail ih => simp only [List.map_cons, List.sum_cons]; simp; omega
  have hlt : ((childLocs l).map (fun c => sizeOf c.tree)).sum < sizeOf l.tree := by
    rw [childLocs, key]
    rcases l with ⟨⟨d, cs⟩, path⟩
    have := listLt cs
    simp only [DomTree.children]
    simp
    omega
  simp only [List.map_append, List.map_map, List.sum_append, List.map_reverse,
    List.sum_reverse, List.map_cons, List.sum_cons]
  have h2 : ∀ n : Nat,
      (List.map ((fun (e : Loc × Nat) => sizeOf e.1.tree) ∘ (fun c => (c, n)))
        (childLocs l)).sum = ((childLocs l).map (fun c => sizeOf c.tree)).sum := by
    intro n
    simp [Function.comp_def]
  rw [h2]
  omega

/-- `calculate_styles_for_tree` (`src/html/style_calculation.rs:211-248`):
build the rule set from the selectors, rebuild the bloom filter up to the
root's parent, and run the traversal from the root, returning the set of
selectors matched somewhere in the tree. -/
def calculate_styles_for_tree (hsh : String → Nat) (root : Loc)
    (selectors : List Selector) : Finset Selector :=
  let rule_set := buildRuleSet (selectors.map (mkRule hsh))
  let bloom := rebuildBloom hsh root
  traverse hsh rule_set [(root, bloom.elements.length)] bloom ∅

/-- The naive matcher: does any element of the (inclusive) subtree match the
selector? -/
def anyElementMatches (sel : Selector) (root : Loc) : Bool :=
  (subtreeLocs root).any sel.matchesLoc

/-- The set of selectors for which the naive per-selector, per-element test
finds a matching element in the tree. -/
def naiveMatchedSelectors (sels : List Selector) (root : Loc) :
    Finset Selector :=
  (sels.filter (fun s => anyElementMatches s root)).toFinset

/-- The hypothesis under which the indexed traversal agrees with the naive
matcher: every selector whose key selector is a type selector has an
all-lowercase type name (name as written equals its lowercased form). -/
def keyLowerOK (sel : Selector) : Prop :=
  ∀ name lower, sel.first.getLast? = some (.tag name lower) → name = lower

/-! ### Critical-rule extraction (`Critters::process_style`, `src/lib.rs`)

The CSS AST of the external `lightningcss` crate is modelled at the
granularity `process_style` consumes it: a top-level rule is a style rule
(serialized selector texts, declarations, source location), a `@keyframes`
rule (its name), a `@font-face` rule (its properties), or another rule
(`@media`, `@supports`, ...).  Selector matching against the document
(`critters_container.as_node().select(&selector)` counting matches, with
`Err` on invalid syntax) is abstracted as a parameter
`mc : String → Option Nat`. -/

/-- A declaration as observed by `process_style`: an
`animation`/`animation-name` declaration, a `font-family` declaration, or
anything else, with the serialized value. -/
inductive MDecl where
  | animation (value : String)
  | fontFamily (value : String)
  | other
deriving DecidableEq

/-- A `@font-face` property: a `src` property (carrying the URL extracted
from its serialized value by the regex
`url\s*\(\s*(['"]?)(.+?)\1\s*\)`, group 2 of the first match, `none` when
the regex does not match), a `font-family` property (serialized value), or
anything else. -/
inductive MFontFaceProp where
  | source (href : Option String)
  | family (value : String)
  | other
deriving DecidableEq

/-- A top-level style rule: serialized selector texts, declarations and
source location. -/
structure MStyleRule where
  selectors : List String
  declarations : List MDecl
  loc : SLoc
deriving DecidableEq

/-- A top-level CSS rule. -/
inductive MCssRule where
  | style (r : MStyleRule)
  | keyframes (name : String)
  | fontFace (props : List MFontFaceProp)
  | other
deriving DecidableEq

/-- `KeyframesStrategy` (`src/lib.rs:46-56`). -/
inductive KeyframesStrategy where
  | critical
  | all
  | none
deriving DecidableEq

/-- The subset of `CrittersOptions` (`src/lib.rs:95-147`) consulted by the
embedded operations. -/
structure COptions where
  inline_fonts : Bool
  preload_fonts : Bool
  keyframes : KeyframesStrategy
  merge_stylesheets : Bool
deriving DecidableEq

/-- The matcher of the regex `^::?(before|after)$` (`src/lib.rs:401`): it
matches exactly the four pure `::before`/`::after` pseudo-selector
spellings. -/
def globalPseudo (s : String) : Bool :=
  s == ":before" || s == "::before" || s == ":after" || s == "::after"

/-- Whether a selector is trivially retained by the first pass
(`src/lib.rs:410-417`): `":root"`, `"html"`, `"body"`, or a pure
`::before`/`::after` pseudo-selector. -/
def trivialSelector (s : String) : Bool :=
  s == ":root" || s == "html" || s == "body" || globalPseudo s

/-- The selector filter of the first pass (`src/lib.rs:404-430`): a trivial
selector survives; otherwise the document is queried (`mc`), a selector with
a positive match count survives, one with zero matches is dropped, and one
with invalid syntax (`mc _ = none`) is dropped and recorded among the failed
selectors.  Returns `(survivors, failed)` in order. -/
def filterSelectors (mc : String → Option Nat) :
    List String → List String × List String
  | [] => ([], [])
  | s :: rest =>
      let (surv, failed) := filterSelectors mc rest
      if trivialSelector s then (s :: surv, failed)
      else
        match mc s with
        | some n => if 0 < n then (s :: surv, failed) else (surv, failed)
        | none => (surv, s :: failed)

/-- Rust `str::split_whitespace`: the non-empty maximal runs of
non-whitespace characters. -/
def splitWsAux : List Char → List Char → List String
  | [], cur => if cur.isEmpty then [] else [String.mk cur.reverse]
  | c :: rest, cur =>
      if c.isWhitespace then
        if cur.isEmpty then splitWsAux rest []
        else String.mk cur.reverse :: splitWsAux rest []
      else splitWsAux rest (c :: cur)

/-- `value.split_whitespace()` over a string. -/
def splitWs (s : String) : List String := splitWsAux s.data []

/-- The mutable state accumulated by `process_style`
(`src/lib.rs:388-391`): failed selectors, rule identities marked for
removal, critical keyframe names, and the concatenated critical font
families.  The Rust `HashSet`s are modelled as lists (only membership is
consulted). -/
structure FPState where
  failedSelectors : List String
  rulesToRemove : List Nat
  criticalKeyframeNames : List String
  criticalFonts : String
deriving DecidableEq

/-- The initial (empty) first-pass state. -/
def FPState.init : FPState := ⟨[], [], [], ""⟩

/-- Declaration scanning of a surviving style rule (`src/lib.rs:440-462`):
`animation`/`animation-name` values are split on whitespace and each token
is inserted into the critical keyframe names; each `font-family` value is
appended to the critical fonts string behind a space. -/
def collectDecls (st : FPState) (decls : List MDecl) : FPState :=
  decls.foldl
    (fun st d =>
      match d with
      | .animation v =>
          { st with criticalKeyframeNames :=
              st.criticalKeyframeNames ++ splitWs v }
      | .fontFamily v =>
          { st with criticalFonts := st.criticalFonts ++ " " ++ v }
      | .other => st) st

/-- The first pass of `process_style` (`src/lib.rs:398-464`): walk the
top-level rules; for each style rule filter its selector list against the
document; if no selector survives, insert the rule's identity into
`rules_to_remove` and — as the source does — `break` out of the loop,
leaving all remaining rules unfiltered; otherwise replace the selector list
with the survivors and scan the declarations.  Non-style rules are passed
over.  Returns the updated rule list and the accumulated state. -/
def firstPass (mc : String → Option Nat) :
    List MCssRule → FPState → List MCssRule × FPState
  | [], st => ([], st)
  | .style r :: rest, st =>
      let fs := filterSelectors mc r.selectors
      let st1 := { st with failedSelectors := st.failedSelectors ++ fs.2 }
      if fs.1.isEmpty then
        (.style r :: rest,
          { st1 with rulesToRemove := ruleId r.loc :: st1.rulesToRemove })
      else
        let r' := { r with selectors := fs.1 }
        let st2 := collectDecls st1 r'.declarations
        (.style r' :: (firstPass mc rest st2).1, (firstPass mc rest st2).2)
  | rule :: rest, st =>
      (rule :: (firstPass mc rest st).1, (firstPass mc rest st).2)

/-- The `href`/`family` extraction of the `@font-face` branch
(`src/lib.rs:483-498`): walk the properties; each `src` property overwrites
the extracted URL, each `font-family` property overwrites the family. -/
def extractFontFace (props : List MFontFaceProp) :
    Option String × Option String :=
  props.foldl
    (fun acc p =>
      match p with
      | .source href => (href, acc.2)
      | .family v => (acc.1, some v)
      | .other => acc)
    (none, none)

/-- Rust `String::contains` (substring containment). -/
def substrB (needle hay : String) : Bool :=
  decide (needle.data <:+: hay.data)

/-- The retention predicate of the second pass (`src/lib.rs:468-518`): a
style rule is retained iff its identity is not marked for removal; a
`@keyframes` rule iff its name is among the critical keyframe names (the
configured keyframes strategy is not consulted — the source carries
`// TODO: keyframes mode options`); a `@font-face` rule iff `inline_fonts`
is enabled, a `font-family` property is present, a `src` URL was extracted,
and the family value is a substring of the critical fonts string; every
other rule is retained. -/
def retainRule (opts : COptions) (st : FPState) : MCssRule → Bool
  | .style r => !(st.rulesToRemove.contains (ruleId r.loc))
  | .keyframes n => st.criticalKeyframeNames.contains n
  | .fontFace props =>
      let hf := extractFontFace props
      opts.inline_fonts && hf.2.isSome && hf.1.isSome &&
        (match hf.2 with
         | some f => substrB f st.criticalFonts
         | none => false)
  | .other => true

/-- `Critters::process_style` (`src/lib.rs:385-533`) restricted to its AST
transformation: run the first pass, then retain the surviving rules.  (The
font-preload injection into `<head>` and the final serialization do not
affect the retained rule list.) -/
def processStyle (opts : COptions) (mc : String → Option Nat)
    (ast : List MCssRule) : List MCssRule :=
  (firstPass mc ast FPState.init).1.filter
    (retainRule opts (firstPass mc ast FPState.init).2)

/-! ### Stylesheet merging and the top-level pipeline (`src/lib.rs`)

The `<style>` elements manipulated here are kuchikiki DOM nodes (an
external collaborator; spec §4.1 fixes the node operations).  A style
element is modelled by its list of children; `text_contents` is the
concatenation of the text children. -/

/-- A child node of a `<style>` element: a text node or any other node. -/
inductive SChild where
  | text (s : String)
  | elem
deriving DecidableEq

/-- `text_contents` of a style element (concatenation of the text of its
text descendants; a non-text child contributes nothing). -/
def textContents (children : List SChild) : String :=
  children.foldl
    (fun acc c =>
      match c with
      | .text s => acc ++ s
      | .elem => acc) ""

/-- `Critters::merge_stylesheets` (`src/lib.rs:759-776`) on the produced
style elements, each given by its child list in processing (document)
order: iterate the styles in reverse; take the first child of the last
style (if there are no styles, or the last style has no children, return
with the document unchanged); starting from that child's text contents,
append the `text_contents` of each earlier style in reverse document order,
detaching it; finally replace the first child — which must be a text node,
`first.into_text_ref().unwrap()` panics otherwise (modelled as `none`) —
with the accumulated sheet. -/
def merge_stylesheets (styles : List (List SChild)) :
    Option (List (List SChild)) :=
  match styles.reverse with
  | [] => some styles
  | lastS :: earlier =>
      match lastS with
      | [] => some styles
      | c0 :: cs =>
          let sheet := earlier.foldl
            (fun acc st => acc ++ textContents st) (textContents [c0])
          match c0 with
          | .elem => none
          | .text _ => some [SChild.text sheet :: cs]

/-- `process_style` on a stylesheet source string
(`src/lib.rs:393-394` and `527-532`): parsing (`parseCss`, `none` on a
parse error) aborts with the error `process_style` returns; otherwise the
AST is processed and serialized (`toCss`, modelling
`lightningcss` printing). -/
def processStyleStr (opts : COptions) (mc : String → Option Nat)
    (parseCss : String → Option (List MCssRule))
    (toCss : List MCssRule → String) (sheet : String) :
    Except String String :=
  match parseCss sheet with
  | none => .error "Failed to parse stylesheet."
  | some ast => .ok (toCss (processStyle opts mc ast))

/-- `Critters::process_style_el` (`src/lib.rs:536-561`): an empty style
element is skipped; a first child that is not a text node is an error; an
empty sheet is skipped; otherwise the sheet is processed — a processing
error propagates before any mutation — and on success all children are
detached and replaced by a single text node with the reduced CSS. -/
def processStyleEl (opts : COptions) (mc : String → Option Nat)
    (parseCss : String → Option (List MCssRule))
    (toCss : List MCssRule → String) (style : List SChild) :
    Except String (List SChild) :=
  match style with
  | [] => .ok style
  | c0 :: _ =>
      match c0 with
      | .elem => .error "Invalid style tag"
      | .text sheet =>
          if sheet = "" then .ok style
          else
            match processStyleStr opts mc parseCss toCss sheet with
            | .error e => .error e
            | .ok css => .ok [SChild.text css]

/-- The stylesheet loop of `Critters::process_impl` (`src/lib.rs:253-264`):
process each style element in order; an error is logged and the element is
left unchanged, and processing continues with the remaining elements. -/
def processImplStyles (opts : COptions) (mc : String → Option Nat)
    (parseCss : String → Option (List MCssRule))
    (toCss : List MCssRule → String) (styles : List (List SChild)) :
    List (List SChild) :=
  styles.map fun s =>
    match processStyleEl opts mc parseCss toCss s with
    | .ok s' => s'
    | .error _ => s

/-- `Critters::process_impl` (`src/lib.rs:231-275`) restricted to the style
elements: run the loop, then optionally merge — per-stylesheet errors never
propagate (they are logged and the element skipped), so the process reaches
serialization whenever merging does not hit its panic case (`none`). -/
def processImpl (opts : COptions) (mc : String → Option Nat)
    (parseCss : String → Option (List MCssRule))
    (toCss : List MCssRule → String) (styles : List (List SChild)) :
    Option (List (List SChild)) :=
  let styles' := processImplStyles opts mc parseCss toCss styles
  if opts.merge_stylesheets then merge_stylesheets styles' else some styles'

/-- A style element whose first child, if any, is a text node — every
`<style>` element of an HTML document parsed by html5ever has this shape
(style content is raw text). -/
def TextFirst (s : List SChild) : Prop :=
  s = [] ∨ ∃ t rest, s = SChild.text t :: rest

/-! ## Theorems -/

/-! ### Bloom filter lemmas -/

theorem bloom_pop_push {α : Type} (hashes : α → List Nat) (e : α)
    (b : StyleBloom α) : (b.push hashes e).pop = some (e, b) := by
  simp only [StyleBloom.push, StyleBloom.pop]
  have ht : ((hashes e).reverse ++ b.pushedHashes).take (hashes e).length
      = (hashes e).reverse := by
    rw [← List.length_reverse (hashes e)]
    exact List.take_left _ _
  have hd : ((hashes e).reverse ++ b.pushedHashes).drop (hashes e).length
      = b.pushedHashes := by
    rw [← List.length_reverse (hashes e)]
    exact List.drop_left _ _
  rw [ht, hd]
  have hfil : b.filter + ((hashes e : List Nat) : Multiset Nat)
      - (((hashes e).reverse : List Nat) : Multiset Nat) = b.filter := by
    rw [Multiset.coe_reverse]
    exact add_tsub_cancel_right _ _
  rw [hfil]

theorem bloom_step_wf {α : Type} (hashes : α → List Nat) (b : StyleBloom α)
    (hb : b.WF) (op : BloomOp α) : (b.step hashes op).WF := by
  obtain ⟨hf, hl⟩ := hb
  cases op with
  | push e =>
      constructor
      · simp only [StyleBloom.step, StyleBloom.push, hf]
        rw [← Multiset.coe_add, Multiset.coe_reverse]
        exact add_comm _ _
      · simp only [StyleBloom.step, StyleBloom.push]
        simp [hl]
  | pop =>
      simp only [StyleBloom.step]
      rcases hels : b.elements with _ | ⟨⟨e, n⟩, rest⟩
      · simp [StyleBloom.pop, hels]
        exact ⟨hf, by rw [hl, hels]⟩
      · rw [hels] at hl
        simp only [List.map_cons, List.sum_cons] at hl
        have hn : n ≤ b.pushedHashes.length := by omega
        simp only [StyleBloom.pop, hels]
        constructor
        · simp only
          rw [hf]
          have hsplit : b.pushedHashes
              = b.pushedHashes.take n ++ b.pushedHashes.drop n :=
            (List.take_append_drop n _).symm
          nth_rewrite 1 [hsplit]
          rw [← Multiset.coe_add]
          exact add_tsub_cancel_left _ _
        · simp only [List.length_drop]
          omega

theorem bloom_run_wf {α : Type} (hashes : α → List Nat)
    (ops : List (BloomOp α)) : (StyleBloom.run hashes ops).WF := by
  have step : ∀ (l : List (BloomOp α)) (b : StyleBloom α), b.WF →
      (l.foldl (StyleBloom.step hashes) b).WF := by
    intro l
    induction l with
    | nil => intro b hb; exact hb
    | cons op rest ih =>
        intro b hb
        exact ih _ (bloom_step_wf hashes b hb op)
  exact step ops _ ⟨rfl, rfl⟩

/-- **C7**: for every sequence of balanced push and pop operations on the
`StyleBloom` ancestor filter, each pop removes exactly the hashes recorded by
the matching push (popping right after a push returns exactly the pre-push
state together with the pushed element), and after a full balanced round-trip
(the element stack is empty again) every counter of the counting bloom filter
is zero. -/
theorem styleBloom_pop_push_balanced {α : Type} (hashes : α → List Nat) :
    (∀ (e : α) (b : StyleBloom α), (b.push hashes e).pop = some (e, b)) ∧
    (∀ ops : List (BloomOp α),
      (StyleBloom.run hashes ops).elements = [] →
      (StyleBloom.run hashes ops).filter = 0) := by
  constructor
  · exact bloom_pop_push hashes
  · intro ops hemp
    obtain ⟨hf, hl⟩ := bloom_run_wf hashes ops
    rw [hemp] at hl
    simp only [List.map_nil, List.sum_nil] at hl
    rw [hf, List.length_eq_zero.mp hl]
    rfl

/-- Witness for C7 at a concrete balanced traversal. -/
theorem styleBloom_pop_push_balanced_witness :
    (StyleBloom.run (fun n : Nat => [n, n + 1])
      [.push 5, .push 9, .pop, .push 5, .pop, .pop]).elements = [] ∧
    (StyleBloom.run (fun n : Nat => [n, n + 1])
      [.push 5, .push 9, .pop, .push 5, .pop, .pop]).filter = 0 :=
  ⟨by decide,
   (styleBloom_pop_push_balanced (fun n : Nat => [n, n + 1])).2
     [.push 5, .push 9, .pop, .push 5, .pop, .pop] (by decide)⟩

/-! ### Rule identity -/

theorem ruleId_eq_add (si line col : Nat) (h2 : line < 2 ^ 32)
    (h3 : col < 2 ^ 32) :
    ruleId ⟨si, line, col⟩ = si * 2 ^ 64 + line * 2 ^ 32 + col := by
  unfold ruleId
  simp only [Nat.shiftLeft_eq]
  have hb1 : line * 2 ^ 32 < 2 ^ 64 := by
    have h : line * 2 ^ 32 < 2 ^ 32 * 2 ^ 32 :=
      Nat.mul_lt_mul_of_lt_of_le h2 (Nat.le_refl _) (by norm_num)
    calc line * 2 ^ 32 < 2 ^ 32 * 2 ^ 32 := h
      _ = 2 ^ 64 := by norm_num
  have e1 : 2 ^ 64 * si + line * 2 ^ 32 = 2 ^ 64 * si ||| line * 2 ^ 32 :=
    Nat.mul_add_lt_is_or hb1 si
  have e2 : 2 ^ 32 * (2 ^ 32 * si + line) + col
      = 2 ^ 32 * (2 ^ 32 * si + line) ||| col :=
    Nat.mul_add_lt_is_or h3 _
  calc si * 2 ^ 64 ||| line * 2 ^ 32 ||| col
      = 2 ^ 64 * si ||| line * 2 ^ 32 ||| col := by rw [Nat.mul_comm]
    _ = (2 ^ 64 * si + line * 2 ^ 32) ||| col := by rw [e1]
    _ = 2 ^ 32 * (2 ^ 32 * si + line) ||| col := by ring_nf
    _ = 2 ^ 32 * (2 ^ 32 * si + line) + col := by rw [← e2]
    _ = si * 2 ^ 64 + line * 2 ^ 32 + col := by ring

/-- **C10**: the rule-identity packing `StyleRuleExt::id` is injective on
source locations with 32-bit components: two locations with different
`(source_index, line, column)` triples receive different `u128` identities,
so membership in `rules_to_remove` identifies exactly the intended rule. -/
theorem ruleId_injective (a b : SLoc)
    (ha1 : a.sourceIndex < 2 ^ 32) (ha2 : a.line < 2 ^ 32)
    (ha3 : a.column < 2 ^ 32)
    (hb1 : b.sourceIndex < 2 ^ 32) (hb2 : b.line < 2 ^ 32)
    (hb3 : b.column < 2 ^ 32)
    (h : ruleId a = ruleId b) : a = b := by
  obtain ⟨x1, x2, x3⟩ := a
  obtain ⟨y1, y2, y3⟩ := b
  simp only at ha1 ha2 ha3 hb1 hb2 hb3
  rw [ruleId_eq_add x1 x2 x3 ha2 ha3, ruleId_eq_add y1 y2 y3 hb2 hb3] at h
  norm_num at h ha1 ha2 ha3 hb1 hb2 hb3
  simp only [SLoc.mk.injEq]
  refine ⟨?_, ?_, ?_⟩ <;> omega

/-- Witness for C10 at concrete locations. -/
theorem ruleId_injective_witness : SLoc.mk 1 2 3 = SLoc.mk 1 2 3 :=
  ruleId_injective ⟨1, 2, 3⟩ ⟨1, 2, 3⟩ (by norm_num) (by norm_num)
    (by norm_num) (by norm_num) (by norm_num) (by norm_num) rfl

/-! ### Class lists -/

theorem applyOps_class_list (a : Attributes) (ops : List AttrOp) :
    (a.applyOps ops).class_list = a.class_list := by
  induction ops generalizing a with
  | nil => rfl
  | cons op rest ih =>
      cases op with
      | insert n v => exact ih (a.insert n v)
      | remove n => exact ih (a.remove n)

/-- **C8** counterexample: inserting a `class` attribute through
`Attributes::insert` does not refresh the precomputed class list — after
`insert "class" "a"` on an attribute map constructed without a class
attribute, `class_list` is still `[]` although the whitespace-split tokens
of the current `class` value are `["a"]`. -/
theorem attributes_insert_stale_class_list :
    ((Attributes.new []).insert "class" "a").class_list = [] ∧
    classListOfMap ((Attributes.new []).insert "class" "a").map = ["a"] ∧
    ([] : List String) ≠ ["a"] := by
  refine ⟨rfl, by decide, by decide⟩

/-- **C8 (amended)**: the precomputed class list equals the whitespace-split
tokens of the `class` attribute as of construction (`Attributes::new`), and
no sequence of `Attributes::insert` / `Attributes::remove` mutations ever
refreshes it — the class list after any mutations is the one computed at
construction. -/
theorem class_list_fixed_at_construction
    (attrs : List (ExpandedName × RAttribute)) (ops : List AttrOp) :
    (Attributes.new attrs).class_list
        = classListOfMap (Attributes.new attrs).map ∧
    ((Attributes.new attrs).applyOps ops).class_list
        = (Attributes.new attrs).class_list :=
  ⟨rfl, applyOps_class_list _ ops⟩

/-! ### Stylesheet merging -/

/-- **C4** counterexample: with two engine-produced `<style>` elements whose
texts are `"a"` and `"b"` (in document order), `merge_stylesheets` keeps the
trailing element but gives it the text `"ba"`, not the document-order
concatenation `"ab"`. -/
theorem merge_stylesheets_reverse_order :
    merge_stylesheets [[SChild.text "a"], [SChild.text "b"]]
      = some [[SChild.text "ba"]] ∧ "ba" ≠ "ab" := by
  refine ⟨by decide, by decide⟩

theorem merge_foldl_join (rest : List String) : ∀ acc : String,
    ((rest.map fun t => [SChild.text t]).foldl
      (fun acc st => acc ++ textContents st) acc)
      = acc ++ String.join rest := by
  induction rest with
  | nil => intro acc; simp [String.join]
  | cons r rs ih =>
      intro acc
      simp only [List.map_cons, List.foldl_cons]
      rw [ih]
      have hr : textContents [SChild.text r] = r := by
        simp [textContents]
      rw [hr]
      have : String.join (r :: rs) = r ++ String.join rs := by
        apply String.ext
        simp
      rw [this, String.append_assoc]

/-- **C4 (amended)**: when every produced `<style>` element holds a single
text child and at least one stylesheet was produced, `merge_stylesheets`
coalesces them into the single trailing `<style>` element, but its text is
the concatenation of the individual texts in *reverse* document order (the
last stylesheet's text first); the other `<style>` elements are detached. -/
theorem merge_stylesheets_spec (texts : List String) (h : texts ≠ []) :
    merge_stylesheets (texts.map fun t => [SChild.text t])
      = some [[SChild.text (String.join texts.reverse)]] := by
  rcases hr : texts.reverse with _ | ⟨t0, rest⟩
  · exact absurd (by simpa using congrArg List.reverse hr) h
  · unfold merge_stylesheets
    rw [← List.map_reverse, hr]
    simp only [List.map_cons]
    rw [merge_foldl_join]
    have h0 : textContents [SChild.text t0] = t0 := by simp [textContents]
    rw [h0]
    have : t0 ++ String.join rest = String.join (t0 :: rest) := by
      apply String.ext
      simp
    rw [this, ← hr]

/-- Witness for C4 (amended) at two concrete stylesheets. -/
theorem merge_stylesheets_spec_witness :
    (["x", "y"] : List String) ≠ [] ∧
    merge_stylesheets ((["x", "y"] : List String).map fun t => [SChild.text t])
      = some [[SChild.text (String.join (["x", "y"] : List String).reverse)]] :=
  ⟨by decide, merge_stylesheets_spec ["x", "y"] (by decide)⟩

/-! ### Error recovery in the pipeline -/

theorem processStyleEl_textFirst (opts : COptions) (mc : String → Option Nat)
    (parseCss : String → Option (List MCssRule))
    (toCss : List MCssRule → String) (s : List SChild) (hs : TextFirst s) :
    TextFirst
      (match processStyleEl opts mc parseCss toCss s with
       | .ok s' => s'
       | .error _ => s) := by
  rcases hs with h | ⟨t, rest, h⟩
  · subst h
    exact Or.inl rfl
  · subst h
    simp only [processStyleEl]
    by_cases ht : t = ""
    · simp [ht]
      exact Or.inr ⟨t, rest, by simp [ht]⟩
    · simp only [if_neg ht]
      rcases hp : processStyleStr opts mc parseCss toCss t with e | css
      · simp only [hp]
        exact Or.inr ⟨t, rest, rfl⟩
      · simp only [hp]
        exact Or.inr ⟨css, [], rfl⟩

theorem merge_stylesheets_isSome (styles : List (List SChild))
    (h : ∀ s ∈ styles, TextFirst s) :
    (merge_stylesheets styles).isSome = true := by
  unfold merge_stylesheets
  rcases hr : styles.reverse with _ | ⟨lastS, earlier⟩
  · rfl
  · have hmem : lastS ∈ styles := by
      rw [← List.mem_reverse, hr]
      exact List.mem_cons_self _ _
    rcases h lastS hmem with hnil | ⟨t, rest, htf⟩
    · subst hnil
      rfl
    · subst htf
      rfl

/-- **C9**: if parsing of one stylesheet source fails inside
`process_style`, the top-level process still reaches serialization
successfully, the failing `<style>` element's children are left unchanged
(no mutation happens before the parse error propagates out of
`process_style_el`), and the remaining stylesheet sources are still fully
processed. -/
theorem stylesheet_parse_failure_recovery (opts : COptions)
    (mc : String → Option Nat) (parseCss : String → Option (List MCssRule))
    (toCss : List MCssRule → String) (styles : List (List SChild)) (i : Nat)
    (sheet : String)
    (htf : ∀ s ∈ styles, TextFirst s)
    (hi : styles[i]? = some [SChild.text sheet])
    (hne : sheet ≠ "") (hfail : parseCss sheet = none) :
    ((processImplStyles opts mc parseCss toCss styles)[i]?
        = some [SChild.text sheet]) ∧
    (∀ j sheet' ast', j ≠ i → styles[j]? = some [SChild.text sheet'] →
      sheet' ≠ "" → parseCss sheet' = some ast' →
      (processImplStyles opts mc parseCss toCss styles)[j]?
        = some [SChild.text (toCss (processStyle opts mc ast'))]) ∧
    (processImpl opts mc parseCss toCss styles).isSome = true := by
  refine ⟨?_, ?_, ?_⟩
  · unfold processImplStyles
    rw [List.getElem?_map, hi]
    simp only [Option.map_some']
    congr 1
    simp only [processStyleEl, if_neg hne, processStyleStr, hfail]
  · intro j sheet' ast' _ hj hne' hok
    unfold processImplStyles
    rw [List.getElem?_map, hj]
    simp only [Option.map_some']
    congr 1
    simp only [processStyleEl, if_neg hne', processStyleStr, hok]
  · unfold processImpl
    by_cases hm : opts.merge_stylesheets
    · simp only [hm, if_true]
      apply merge_stylesheets_isSome
      intro s hs
      unfold processImplStyles at hs
      obtain ⟨s0, hs0, hmap⟩ := List.mem_map.mp hs
      rw [← hmap]
      exact processStyleEl_textFirst opts mc parseCss toCss s0 (htf s0 hs0)
    · simp [hm]

/-- Witness for C9 at a concrete two-stylesheet document whose first sheet
fails to parse. -/
theorem stylesheet_parse_failure_recovery_witness :
    (processImplStyles ⟨false, true, .critical, true⟩ (fun _ => some 0)
        (fun s => if s = "bad" then none else some [])
        (fun _ => "out") [[SChild.text "bad"], [SChild.text "ok"]])[0]?
      = some [SChild.text "bad"] :=
  (stylesheet_parse_failure_recovery ⟨false, true, .critical, true⟩
    (fun _ => some 0) (fun s => if s = "bad" then none else some [])
    (fun _ => "out") [[SChild.text "bad"], [SChild.text "ok"]] 0 "bad"
    (by intro s hs
        simp only [List.mem_cons, List.not_mem_nil, or_false] at hs
        rcases hs with h | h
        · exact Or.inr ⟨"bad", [], h⟩
        · exact Or.inr ⟨"ok", [], h⟩)
    (by decide) (by decide) (by decide)).1

/-! ### Critical-rule extraction -/

/-- **C1** (evaluation at the failing input): with a document in which no
selector matches (`mc` returns zero matches for every selector) and the
stylesheet `.a { } .b { }`, the first pass marks the first rule for removal
and then `break`s out of the rule loop, so the second rule is never
filtered: the reduced output still contains the rule with selector `".b"`,
although `".b"` is not a trivially retained selector and matches zero
elements of the document — contradicting the claimed invariant. -/
theorem firstPass_break_leaves_unfiltered :
    processStyle ⟨false, true, .critical, true⟩ (fun _ => some 0)
      [.style ⟨[".a"], [], ⟨0, 1, 1⟩⟩, .style ⟨[".b"], [], ⟨0, 2, 1⟩⟩]
      = [.style ⟨[".b"], [], ⟨0, 2, 1⟩⟩] ∧
    trivialSelector ".b" = false ∧
    (fun (_ : String) => some (0 : Nat)) ".b" = some 0 :=
  ⟨by decide, by decide, rfl⟩

/-- **C3** (evaluation at the failing inputs): the keyframes strategy option
is not consulted by the retention pass (the source carries `// TODO:
keyframes mode options`): with strategy `All` a `@keyframes` rule whose name
is not referenced is removed (the claim requires it retained), and with
strategy `None` a `@keyframes` rule whose name is referenced by a surviving
`animation` declaration is retained (the claim requires it removed). -/
theorem keyframes_strategy_ignored :
    processStyle ⟨false, true, .all, true⟩ (fun _ => some 1)
      [.keyframes "spin"] = [] ∧
    processStyle ⟨false, true, .none, true⟩ (fun _ => some 1)
      [.style ⟨[".x"], [.animation "spin"], ⟨0, 1, 1⟩⟩, .keyframes "spin"]
      = [.style ⟨[".x"], [.animation "spin"], ⟨0, 1, 1⟩⟩,
         .keyframes "spin"] :=
  ⟨by decide, by decide⟩

/-- **C5** counterexample: a `@font-face` rule with a `font-family` that is
a substring of the accumulated critical font families but with no `src` URL
is removed even though `inline_fonts` is enabled — the retention condition
also requires an extracted `src` URL, which the claim omits. -/
theorem fontface_without_src_removed :
    processStyle ⟨true, true, .critical, true⟩ (fun _ => some 1)
      [.style ⟨[".x"], [.fontFamily "A"], ⟨0, 1, 1⟩⟩, .fontFace [.family "A"]]
      = [.style ⟨[".x"], [.fontFamily "A"], ⟨0, 1, 1⟩⟩] ∧
    (⟨true, true, .critical, true⟩ : COptions).inline_fonts = true ∧
    substrB "A" (firstPass (fun _ => some 1)
      [.style ⟨[".x"], [.fontFamily "A"], ⟨0, 1, 1⟩⟩, .fontFace [.family "A"]]
      FPState.init).2.criticalFonts = true :=
  ⟨by decide, rfl, by decide⟩

theorem fontFace_mem_firstPass (mc : String → Option Nat)
    (ast : List MCssRule) : ∀ (st : FPState) (props : List MFontFaceProp),
    (MCssRule.fontFace props ∈ (firstPass mc ast st).1 ↔
      MCssRule.fontFace props ∈ ast) := by
  induction ast with
  | nil => intro st props; simp [firstPass]
  | cons rule rest ih =>
      intro st props
      cases rule with
      | style r =>
          simp only [firstPass]
          by_cases h : (filterSelectors mc r.selectors).1.isEmpty
          · simp [h]
          · simp [h, ih]
      | keyframes n => simp [firstPass, ih]
      | fontFace p => simp [firstPass, ih]
      | other => simp [firstPass, ih]

/-- **C5 (amended)**: during the second pass of `process_style`, a top-level
`@font-face` rule is retained in the output iff the `inline_fonts` option is
enabled AND the rule has a `font-family` property AND a `src` URL was
extracted from the rule AND the font-family value is a substring of the
accumulated `critical_font_families` string collected from surviving style
rules. -/
theorem fontface_retention_iff (opts : COptions) (mc : String → Option Nat)
    (ast : List MCssRule) (props : List MFontFaceProp) :
    MCssRule.fontFace props ∈ processStyle opts mc ast ↔
      (MCssRule.fontFace props ∈ ast ∧ opts.inline_fonts = true ∧
        ∃ f, (extractFontFace props).2 = some f ∧
          (extractFontFace props).1.isSome = true ∧
          substrB f (firstPass mc ast FPState.init).2.criticalFonts = true) := by
  unfold processStyle
  rw [List.mem_filter, fontFace_mem_firstPass]
  rcases hfam : (extractFontFace props).2 with _ | f
  · simp only [retainRule, hfam]
    simp
  · simp only [retainRule, hfam]
    simp only [Bool.and_eq_true, Option.isSome_some]
    constructor
    · rintro ⟨hmem, ⟨⟨hif, _⟩, hhref⟩, hsub⟩
      exact ⟨hmem, hif, f, rfl, hhref, hsub⟩
    · rintro ⟨hmem, hif, f', hf', hhref, hsub⟩
      cases hf'
      exact ⟨hmem, ⟨⟨hif, trivial⟩, hhref⟩, hsub⟩

/-! ### Rule-set bucketing -/

theorem inBucket_add_rule (rs : RuleSet) (r0 r : Rule) (k : KeySelector) :
    inBucket (rs.add_rule r0) k r ↔
      (inBucket rs k r ∨ (r = r0 ∧ k = extract_key_selector r0.selector)) := by
  unfold RuleSet.add_rule
  cases hk0 : extract_key_selector r0.selector <;> cases k <;>
    simp only [inBucket, List.mem_append, List.mem_singleton] <;>
    (try split_ifs with hts) <;>
    simp_all

theorem inBucket_foldl (rules : List Rule) :
    ∀ (rs0 : RuleSet) (k : KeySelector) (r : Rule),
    inBucket (rules.foldl RuleSet.add_rule rs0) k r ↔
      (inBucket rs0 k r ∨
        (r ∈ rules ∧ k = extract_key_selector r.selector)) := by
  induction rules with
  | nil => intro rs0 k r; simp
  | cons r0 rest ih =>
      intro rs0 k r
      simp only [List.foldl_cons]
      rw [ih, inBucket_add_rule]
      constructor
      · rintro (⟨h0 | ⟨rfl, rfl⟩⟩ | ⟨hm, hk⟩)
        · exact Or.inl h0
        · exact Or.inr ⟨List.mem_cons_self _ _, rfl⟩
        · exact Or.inr ⟨List.mem_cons_of_mem _ hm, hk⟩
      · rintro (h0 | ⟨hm, hk⟩)
        · exact Or.inl (Or.inl h0)
        · rcases List.mem_cons.mp hm with rfl | hm'
          · exact Or.inl (Or.inr ⟨rfl, hk⟩)
          · exact Or.inr ⟨hm', hk⟩

theorem inBucket_build (rules : List Rule) (k : KeySelector) (r : Rule) :
    inBucket (buildRuleSet rules) k r ↔
      (r ∈ rules ∧ k = extract_key_selector r.selector) := by
  unfold buildRuleSet
  rw [inBucket_foldl]
  have hnew : ¬ inBucket RuleSet.new k r := by
    cases k <;> simp [inBucket, RuleSet.new]
  tauto

/-- **C6** counterexample: a rule whose rightmost compound is
`[ID "a", Class "b"]` (the selector `#a.b`) is keyed by its *last* simple
selector and lands in the class bucket `"b"`; the id > class preference
order claimed would put it in the id bucket `"a"`, which stays empty. -/
theorem ruleset_no_id_preference :
    extract_key_selector ⟨[.id "a", .cls "b"], []⟩ = KeySelector.cls "b" ∧
    inBucket (buildRuleSet [⟨⟨[.id "a", .cls "b"], []⟩, []⟩])
      (KeySelector.cls "b") ⟨⟨[.id "a", .cls "b"], []⟩, []⟩ ∧
    ¬ inBucket (buildRuleSet [⟨⟨[.id "a", .cls "b"], []⟩, []⟩])
      (KeySelector.id "a") ⟨⟨[.id "a", .cls "b"], []⟩, []⟩ := by
  refine ⟨rfl, ?_, ?_⟩
  · rw [inBucket_build]
    exact ⟨List.mem_singleton.mpr rfl, rfl⟩
  · rw [inBucket_build]
    rintro ⟨-, h⟩
    cases h

/-- **C6 (amended)**: when a `RuleSet` is constructed, every rule is placed
into exactly one of the four buckets — the bucket selected by
`extract_key_selector`, i.e. by the kind of the *last* simple selector of
the rightmost compound selector (id / class / lowercased type name by that
component's kind, anything else universal).  When the rightmost compound
contains several of these component kinds, the syntactically last one
decides, not the id > class > tag preference order. -/
theorem ruleset_exactly_one_bucket (rules : List Rule) (r : Rule)
    (hr : r ∈ rules) :
    inBucket (buildRuleSet rules) (extract_key_selector r.selector) r ∧
    ∀ k, inBucket (buildRuleSet rules) k r →
      k = extract_key_selector r.selector := by
  constructor
  · exact (inBucket_build rules _ r).mpr ⟨hr, rfl⟩
  · intro k hk
    exact ((inBucket_build rules k r).mp hk).2

/-- Witness for C6 (amended) at a concrete rule. -/
theorem ruleset_exactly_one_bucket_witness :
    inBucket (buildRuleSet [⟨⟨[.tag "div" "div"], []⟩, []⟩])
      (extract_key_selector (⟨⟨[.tag "div" "div"], []⟩, []⟩ : Rule).selector)
      ⟨⟨[.tag "div" "div"], []⟩, []⟩ ∧
    ∀ k, inBucket (buildRuleSet [⟨⟨[.tag "div" "div"], []⟩, []⟩]) k
      ⟨⟨[.tag "div" "div"], []⟩, []⟩ →
      k = extract_key_selector (⟨⟨[.tag "div" "div"], []⟩, []⟩ : Rule).selector :=
  ruleset_exactly_one_bucket [⟨⟨[.tag "div" "div"], []⟩, []⟩]
    ⟨⟨[.tag "div" "div"], []⟩, []⟩ (List.mem_singleton.mpr rfl)

/-! ### DOM zipper lemmas -/

theorem ancestorLocs_parent {l p : Loc} (h : l.parent? = some p) :
    ancestorLocs l = p :: ancestorLocs p := by
  obtain ⟨t, path⟩ := l
  cases path with
  | nil => simp [Loc.parent?] at h
  | cons f rest =>
      simp only [Loc.parent?, Option.some.injEq] at h
      rw [ancestorLocs, h]

theorem ancestorLocs_of_parent?_none {l : Loc} (h : l.parent? = none) :
    ancestorLocs l = [] := by
  obtain ⟨t, path⟩ := l
  cases path with
  | nil => rw [ancestorLocs]
  | cons f rest => simp [Loc.parent?] at h

theorem parent?_path_length {l p : Loc} (h : l.parent? = some p) :
    p.path.length + 1 = l.path.length := by
  obtain ⟨t, path⟩ := l
  cases path with
  | nil => simp [Loc.parent?] at h
  | cons f rest =>
      simp only [Loc.parent?, Option.some.injEq] at h
      subst h
      simp

theorem ancestorLocs_sub_aux : ∀ (n : Nat) (l : Loc), l.path.length ≤ n →
    ∀ p ∈ ancestorLocs l, ∀ a ∈ ancestorLocs p, a ∈ ancestorLocs l := by
  intro n
  induction n with
  | zero =>
      intro l hl p hp
      obtain ⟨t, path⟩ := l
      cases path with
      | nil => rw [ancestorLocs] at hp; cases hp
      | cons f rest => simp at hl
  | succ n ih =>
      intro l hl p hp a ha
      rcases hq : l.parent? with _ | q
      · rw [ancestorLocs_of_parent?_none hq] at hp; cases hp
      · rw [ancestorLocs_parent hq] at hp ⊢
        have hqlen : q.path.length ≤ n := by
          have := parent?_path_length hq
          omega
        rcases List.mem_cons.mp hp with rfl | hp'
        · exact List.mem_cons_of_mem _ ha
        · exact List.mem_cons_of_mem _ (ih q hqlen p hp' a ha)

theorem ancestorLocs_sub {l p : Loc} (hp : p ∈ ancestorLocs l) :
    ∀ a ∈ ancestorLocs p, a ∈ ancestorLocs l :=
  ancestorLocs_sub_aux l.path.length l (Nat.le_refl _) p hp

theorem prevSib?_parent? {l s : Loc} (h : l.prevSib? = some s) :
    s.parent? = l.parent? := by
  obtain ⟨t, path⟩ := l
  cases path with
  | nil => simp [Loc.prevSib?] at h
  | cons f rest =>
      obtain ⟨d, before, after⟩ := f
      cases before with
      | nil => simp [Loc.prevSib?] at h
      | cons e b' =>
          simp only [Loc.prevSib?, Option.some.injEq] at h
          subst h
          simp [Loc.parent?, List.append_assoc]

theorem prevSib?_ancestorLocs {l s : Loc} (h : l.prevSib? = some s) :
    ancestorLocs s = ancestorLocs l := by
  rcases hq : l.parent? with _ | q
  · exfalso
    obtain ⟨t, path⟩ := l
    cases path with
    | nil => simp [Loc.prevSib?] at h
    | cons f rest => simp [Loc.parent?] at hq
  · have hs : s.parent? = some q := by rw [prevSib?_parent? h, hq]
    rw [ancestorLocs_parent hs, ancestorLocs_parent hq]

theorem earlierSibLocs_ancestorLocs (l : Loc) :
    ∀ s ∈ earlierSibLocs l, ancestorLocs s = ancestorLocs l := by
  induction l using earlierSibLocs.induct with
  | case1 l hnone =>
      intro s hs
      rw [earlierSibLocs, hnone] at hs
      cases hs
  | case2 l p hp ih =>
      intro s hs
      rw [earlierSibLocs, hp] at hs
      rcases List.mem_cons.mp hs with rfl | hs'
      · exact prevSib?_ancestorLocs hp
      · rw [ih s hs', prevSib?_ancestorLocs hp]

theorem splitsAux_parent? (d : ElemData) (path : List Frame) :
    ∀ (rest before : List DomTree) (c : Loc), c ∈ splitsAux d path before rest →
      c.parent? = some ⟨DomTree.node d (before.reverse ++ rest), path⟩ := by
  intro rest
  induction rest with
  | nil => intro before c hc; simp [splitsAux] at hc
  | cons x after ih =>
      intro before c hc
      simp only [splitsAux, List.mem_cons] at hc
      rcases hc with rfl | hc
      · simp [Loc.parent?]
      · rw [ih (x :: before) c hc]
        simp [List.append_assoc]

theorem childLocs_parent? {l c : Loc} (hc : c ∈ childLocs l) :
    c.parent? = some l := by
  obtain ⟨⟨d, cs⟩, path⟩ := l
  unfold childLocs at hc
  simp only [DomTree.data, DomTree.children] at hc
  have h2 := splitsAux_parent? d path cs [] c hc
  simpa using h2

theorem ancestorPath_child {l c : Loc} (hc : c ∈ childLocs l) :
    ancestorPath c = ancestorPath l ++ [l] := by
  unfold ancestorPath
  rw [ancestorLocs_parent (childLocs_parent? hc)]
  simp

/-! ### Bloom filter path lemmas -/

theorem pathBloom_append (hsh : String → Nat) (P : List Loc) (x : Loc) :
    pathBloom hsh (P ++ [x])
      = (pathBloom hsh P).push (relevantHashes hsh) (Loc.data x) := by
  unfold pathBloom
  rw [List.foldl_append]
  rfl

theorem pathBloom_elements_length (hsh : String → Nat) (P : List Loc) :
    (pathBloom hsh P).elements.length = P.length := by
  unfold pathBloom
  have gen : ∀ (Q : List Loc) (b : StyleBloom ElemData),
      (Q.foldl (fun b a => b.push (relevantHashes hsh) (Loc.data a))
        b).elements.length = b.elements.length + Q.length := by
    intro Q
    induction Q with
    | nil => intro b; simp
    | cons a rest ih =>
        intro b
        rw [List.foldl_cons, ih]
        simp only [StyleBloom.push, List.length_cons]
        omega
  simpa [StyleBloom.empty] using gen P (StyleBloom.empty ElemData)

theorem pathBloom_pop {hsh : String → Nat} {P Q : List Loc} {x : Loc}
    (h : P = Q ++ [x]) :
    (pathBloom hsh P).pop = some (Loc.data x, pathBloom hsh Q) := by
  subst h
  rw [pathBloom_append]
  exact bloom_pop_push _ _ _

theorem popToDepth_pathBloom (hsh : String → Nat) (d : Nat) (P : List Loc) :
    popToDepth d (pathBloom hsh P) = pathBloom hsh (P.take d) := by
  induction P using List.reverseRecOn with
  | nil =>
      rw [popToDepth]
      simp [pathBloom, StyleBloom.empty]
  | append_singleton Q x ih =>
      rw [popToDepth]
      by_cases hd : d < (pathBloom hsh (Q ++ [x])).elements.length
      · rw [if_pos hd]
        rw [pathBloom_elements_length] at hd
        simp only [List.length_append] at hd
        split
        next heq =>
          rw [pathBloom_pop rfl] at heq
          cases heq
        next e b' heq =>
          rw [pathBloom_pop rfl] at heq
          cases heq
          rw [ih]
          congr 1
          rw [List.take_append_of_le_length (by simp at hd; omega)]
      · rw [if_neg hd]
        rw [pathBloom_elements_length] at hd
        simp only [List.length_append] at hd
        rw [List.take_of_length_le (by simp; simp at hd; omega)]

theorem pathBloom_filter (hsh : String → Nat) (P : List Loc) :
    (pathBloom hsh P).filter
      = (P.map (fun a =>
          ((relevantHashes hsh (Loc.data a) : List Nat) : Multiset Nat))).sum := by
  unfold pathBloom
  have gen : ∀ (Q : List Loc) (b : StyleBloom ElemData),
      (Q.foldl (fun b a => b.push (relevantHashes hsh) (Loc.data a)) b).filter
        = b.filter + (Q.map (fun a =>
            ((relevantHashes hsh (Loc.data a) : List Nat) : Multiset Nat))).sum := by
    intro Q
    induction Q with
    | nil => intro b; simp
    | cons a rest ih =>
        intro b
        rw [List.foldl_cons, ih]
        simp only [StyleBloom.push, List.map_cons, List.sum_cons]
        rw [add_assoc]
  simpa [StyleBloom.empty] using gen P (StyleBloom.empty ElemData)

theorem pathBloom_mayContain {hsh : String → Nat} {P : List Loc} {h : Nat}
    (ha : ∃ a ∈ P, h ∈ relevantHashes hsh (Loc.data a)) :
    (pathBloom hsh P).mayContain h = true := by
  obtain ⟨a, haP, hha⟩ := ha
  unfold StyleBloom.mayContain
  simp only [decide_eq_true_eq]
  rw [Multiset.count_pos, pathBloom_filter]
  revert haP
  induction P with
  | nil => intro haP; cases haP
  | cons p rest ih =>
      intro haP
      simp only [List.map_cons, List.sum_cons, Multiset.mem_add]
      rcases List.mem_cons.mp haP with rfl | hrest
      · exact Or.inl (by simpa using hha)
      · exact Or.inr (ih hrest)

/-! ### Ancestor-hash soundness -/

theorem matchesSimple_hash_mem {hsh : String → Nat} {l : Loc} {s : SimpleSel}
    {h : Nat} (hm : matchesSimple l s = true)
    (hh : simpleAncestorHash hsh s = some h) :
    h ∈ relevantHashes hsh (Loc.data l) := by
  cases s with
  | universal => simp [simpleAncestorHash] at hh
  | attrExists n => simp [simpleAncestorHash] at hh
  | tag name lower =>
      simp only [simpleAncestorHash] at hh
      by_cases hnl : name == lower
      · rw [if_pos hnl] at hh
        cases hh
        have hname : name = lower := by simpa using hnl
        have hloc : (Loc.data l).localName = lower := by
          simp only [matchesSimple] at hm
          by_cases hns : (Loc.data l).nsHtml
          · rw [if_pos hns] at hm; simpa using hm
          · rw [if_neg hns] at hm; simpa [hname] using hm
        simp [relevantHashes, hloc]
      · rw [if_neg hnl] at hh; cases hh
  | id s =>
      simp only [simpleAncestorHash, Option.some.injEq] at hh
      subst hh
      simp only [matchesSimple] at hm
      have hid : (Loc.data l).idAttr = some s := by simpa using hm
      unfold relevantHashes
      rw [hid]
      simp only [List.mem_append, List.mem_cons, List.not_mem_nil]
      tauto
  | cls s =>
      simp only [simpleAncestorHash, Option.some.injEq] at hh
      subst hh
      simp only [matchesSimple, Bool.and_eq_true] at hm
      have hcl : s ∈ (Loc.data l).classList := by simpa using hm.2
      have hmem : hsh s ∈ (Loc.data l).classList.map hsh :=
        List.mem_map_of_mem _ hcl
      unfold relevantHashes
      simp only [List.mem_append]
      tauto

theorem matchesCompound_hashes {hsh : String → Nat} {l : Loc}
    {comp : List SimpleSel} (hm : matchesCompound comp l = true) :
    ∀ h ∈ comp.filterMap (simpleAncestorHash hsh),
      h ∈ relevantHashes hsh (Loc.data l) := by
  intro h hh
  obtain ⟨s, hs, hseq⟩ := List.mem_filterMap.mp hh
  have hms : matchesSimple l s = true := by
    unfold matchesCompound at hm
    exact List.all_eq_true.mp hm s hs
  exact matchesSimple_hash_mem hms hseq

theorem matchesRest_hashes {hsh : String → Nat} :
    ∀ (rest : List (Comb × List SimpleSel)) (l : Loc),
    matchesRest rest l = true →
    ∀ h ∈ (ancestorCompounds rest).flatMap
        (fun comp => comp.filterMap (simpleAncestorHash hsh)),
      ∃ a ∈ ancestorLocs l, h ∈ relevantHashes hsh (Loc.data a) := by
  intro rest
  induction rest with
  | nil => intro l hm h hh; simp [ancestorCompounds] at hh
  | cons e rs ih =>
      obtain ⟨c, comp⟩ := e
      intro l hm h hh
      cases c with
      | child =>
          simp only [matchesRest] at hm
          rcases hq : l.parent? with _ | p
          · rw [hq] at hm; cases hm
          · rw [hq, Bool.and_eq_true] at hm
            obtain ⟨hmc, hmr⟩ := hm
            have hpa : p ∈ ancestorLocs l := by
              rw [ancestorLocs_parent hq]
              exact List.mem_cons_self _ _
            simp only [ancestorCompounds, List.filterMap_cons,
              List.flatMap_cons, List.mem_append] at hh
            rcases hh with hh | hh
            · exact ⟨p, hpa, matchesCompound_hashes hmc h hh⟩
            · obtain ⟨a, haanc, hha⟩ := ih p hmr h hh
              refine ⟨a, ?_, hha⟩
              rw [ancestorLocs_parent hq]
              exact List.mem_cons_of_mem _ haanc
      | descendant =>
          simp only [matchesRest] at hm
          obtain ⟨p, hpa, hmp⟩ := List.any_eq_true.mp hm
          rw [Bool.and_eq_true] at hmp
          obtain ⟨hmc, hmr⟩ := hmp
          simp only [ancestorCompounds, List.filterMap_cons,
            List.flatMap_cons, List.mem_append] at hh
          rcases hh with hh | hh
          · exact ⟨p, hpa, matchesCompound_hashes hmc h hh⟩
          · obtain ⟨a, haanc, hha⟩ := ih p hmr h hh
            exact ⟨a, ancestorLocs_sub hpa a haanc, hha⟩
      | nextSibling =>
          simp only [matchesRest] at hm
          rcases hq : l.prevSib? with _ | p
          · rw [hq] at hm; cases hm
          · rw [hq, Bool.and_eq_true] at hm
            obtain ⟨hmc, hmr⟩ := hm
            simp only [ancestorCompounds, List.filterMap_cons] at hh
            obtain ⟨a, haanc, hha⟩ := ih p hmr h hh
            refine ⟨a, ?_, hha⟩
            rw [← prevSib?_ancestorLocs hq]
            exact haanc
      | laterSibling =>
          simp only [matchesRest] at hm
          obtain ⟨p, hpa, hmp⟩ := List.any_eq_true.mp hm
          rw [Bool.and_eq_true] at hmp
          obtain ⟨hmc, hmr⟩ := hmp
          simp only [ancestorCompounds, List.filterMap_cons] at hh
          obtain ⟨a, haanc, hha⟩ := ih p hmr h hh
          refine ⟨a, ?_, hha⟩
          rw [← earlierSibLocs_ancestorLocs l p hpa]
          exact haanc

theorem matchesLoc_hashes {hsh : String → Nat} {sel : Selector} {l : Loc}
    (hm : sel.matchesLoc l = true) :
    ∀ h ∈ ancestorHashes hsh sel,
      ∃ a ∈ ancestorLocs l, h ∈ relevantHashes hsh (Loc.data a) := by
  intro h hh
  unfold ancestorHashes at hh
  have hh' := List.take_subset _ _ hh
  unfold Selector.matchesLoc at hm
  rw [Bool.and_eq_true] at hm
  exact matchesRest_hashes sel.rest l hm.2 h hh'

/-! ### Candidate-rule completeness and soundness -/

theorem getLast?_matches {l : Loc} {comp : List SimpleSel} {s0 : SimpleSel}
    (hlast : comp.getLast? = some s0) (hm : matchesCompound comp l = true) :
    matchesSimple l s0 = true :=
  List.all_eq_true.mp hm s0 (List.mem_of_getLast?_eq_some hlast)

theorem mem_potential_of_matches {hsh : String → Nat} {sels : List Selector}
    {sel : Selector} {l : Loc} (hsel : sel ∈ sels)
    (hm : sel.matchesLoc l = true) (hkey : keyLowerOK sel) :
    mkRule hsh sel ∈
      (buildRuleSet (sels.map (mkRule hsh))).get_potential_rules
        (Loc.data l) := by
  have hfirst : matchesCompound sel.first l = true := by
    unfold Selector.matchesLoc at hm
    rw [Bool.and_eq_true] at hm
    exact hm.1
  have hb : ∀ k, k = extract_key_selector sel →
      inBucket (buildRuleSet (sels.map (mkRule hsh))) k (mkRule hsh sel) :=
    fun k hkk => (inBucket_build _ _ _).mpr ⟨List.mem_map_of_mem _ hsel, hkk⟩
  unfold RuleSet.get_potential_rules
  simp only [List.mem_append, List.mem_flatMap]
  rcases hlast : sel.first.getLast? with _ | s0
  · have := hb .universal (by unfold extract_key_selector; rw [hlast])
    exact Or.inl (Or.inl (Or.inl this))
  · cases s0 with
    | universal =>
        have := hb .universal (by unfold extract_key_selector; rw [hlast])
        exact Or.inl (Or.inl (Or.inl this))
    | attrExists n =>
        have := hb .universal (by unfold extract_key_selector; rw [hlast])
        exact Or.inl (Or.inl (Or.inl this))
    | id s =>
        have hbk := hb (.id s) (by unfold extract_key_selector; rw [hlast])
        have hms := getLast?_matches hlast hfirst
        have hid : (Loc.data l).idAttr = some s := by
          simpa [matchesSimple] using hms
        refine Or.inl (Or.inl (Or.inr ?_))
        rw [hid]
        exact hbk
    | cls s =>
        have hbk := hb (.cls s) (by unfold extract_key_selector; rw [hlast])
        have hms := getLast?_matches hlast hfirst
        have hcl : s ∈ (Loc.data l).classList := by
          simp only [matchesSimple, Bool.and_eq_true] at hms
          simpa using hms.2
        exact Or.inl (Or.inr ⟨s, hcl, hbk⟩)
    | tag name lower =>
        have hnl : name = lower := hkey name lower hlast
        have hbk := hb (.tag lower) (by unfold extract_key_selector; rw [hlast])
        have hms := getLast?_matches hlast hfirst
        have hloc : (Loc.data l).localName = lower := by
          simp only [matchesSimple] at hms
          by_cases hns : (Loc.data l).nsHtml
          · rw [if_pos hns] at hms; simpa using hms
          · rw [if_neg hns] at hms; simpa [hnl] using hms
        refine Or.inr ?_
        rw [hloc]
        exact hbk

theorem potential_sub {rules : List Rule} {d : ElemData} {r : Rule}
    (hr : r ∈ (buildRuleSet rules).get_potential_rules d) : r ∈ rules := by
  unfold RuleSet.get_potential_rules at hr
  simp only [List.mem_append, List.mem_flatMap] at hr
  rcases hr with ((hr | hr) | ⟨c, _, hrc⟩) | hr
  · exact ((inBucket_build rules .universal r).mp hr).1
  · rcases hid : d.idAttr with _ | i
    · rw [hid] at hr; cases hr
    · rw [hid] at hr
      exact ((inBucket_build rules (.id i) r).mp hr).1
  · exact ((inBucket_build rules (.cls c) r).mp hrc).1
  · exact ((inBucket_build rules (.tag d.localName) r).mp hr).1

/-! ### Per-element equivalence -/

theorem matchingSelectors_eq {hsh : String → Nat} {sels : List Selector}
    (hkeys : ∀ sel ∈ sels, keyLowerOK sel) (l : Loc) :
    matchingSelectors (buildRuleSet (sels.map (mkRule hsh))) l
        (pathBloom hsh (ancestorPath l))
      = (sels.filter (fun s => s.matchesLoc l)).toFinset := by
  ext sel'
  unfold matchingSelectors
  simp only [List.mem_toFinset, List.mem_map, List.mem_filter]
  constructor
  · rintro ⟨r, hrmem, rfl⟩
    obtain ⟨hrpot, hrmatch⟩ := hrmem
    obtain ⟨sel0, hsel0, hr0⟩ := List.mem_map.mp (potential_sub hrpot)
    unfold matchesRule at hrmatch
    rw [Bool.and_eq_true] at hrmatch
    refine ⟨?_, hrmatch.2⟩
    rw [← hr0]
    exact hsel0
  · rintro ⟨hsel, hm⟩
    refine ⟨mkRule hsh sel', ⟨mem_potential_of_matches hsel hm (hkeys _ hsel),
      ?_⟩, rfl⟩
    unfold matchesRule
    rw [Bool.and_eq_true]
    refine ⟨?_, hm⟩
    rw [List.all_eq_true]
    intro h hh
    apply pathBloom_mayContain
    obtain ⟨a, ha, hrel⟩ := matchesLoc_hashes hm h hh
    exact ⟨a, by
      unfold ancestorPath
      rw [List.mem_reverse]
      exact ha, hrel⟩

/-! ### Traversal lemmas -/

theorem splitsAux_trees (d : ElemData) (path : List Frame) :
    ∀ (rest before : List DomTree),
    (splitsAux d path before rest).map (fun c => c.tree) = rest := by
  intro rest
  induction rest with
  | nil => intro before; simp [splitsAux]
  | cons x after ih => intro before; simp [splitsAux, ih]

theorem listSizeOf_lt (cs : List DomTree) : (cs.map sizeOf).sum < sizeOf cs := by
  induction cs with
  | nil => simp
  | cons c rest ih =>
      simp only [List.map_cons, List.sum_cons]
      simp
      omega

theorem childLocs_tree_sum_lt (l : Loc) :
    ((childLocs l).map (fun c => sizeOf c.tree)).sum < sizeOf l.tree := by
  have h1 : (childLocs l).map (fun c => sizeOf c.tree)
      = ((childLocs l).map (fun c => c.tree)).map sizeOf := by
    rw [List.map_map]
    rfl
  rw [h1]
  unfold childLocs
  rw [splitsAux_trees]
  obtain ⟨⟨d, cs⟩, path⟩ := l
  simp only [DomTree.children]
  have h2 := listSizeOf_lt cs
  simp only [DomTree.node.sizeOf_spec, DomTree.data]
  omega

theorem subtreeLocsL_eq (d : ElemData) (path : List Frame) :
    ∀ (rest before : List DomTree),
    subtreeLocsL d path before rest
      = (splitsAux d path before rest).flatMap (fun c => subtreeLocs c) := by
  intro rest
  induction rest with
  | nil => intro before; simp [subtreeLocsL, splitsAux]
  | cons x after ih =>
      intro before
      simp only [subtreeLocsL, splitsAux, List.flatMap_cons]
      rw [ih]
      rfl

theorem subtreeLocs_unfold (l : Loc) :
    subtreeLocs l = l :: (childLocs l).flatMap (fun c => subtreeLocs c) := by
  obtain ⟨⟨d, cs⟩, path⟩ := l
  unfold subtreeLocs childLocs
  simp only [DomTree.data, DomTree.children]
  rw [subtreeLocsT]
  rw [subtreeLocsL_eq]
  rfl

theorem anyElementMatches_unfold (s : Selector) (l : Loc) :
    anyElementMatches s l
      = (s.matchesLoc l || (childLocs l).any (fun c => anyElementMatches s c)) := by
  unfold anyElementMatches
  rw [subtreeLocs_unfold]
  simp only [List.any_cons, List.any_flatMap]

theorem traverse_spec (hsh : String → Nat) (sels : List Selector)
    (hkeys : ∀ sel ∈ sels, keyLowerOK sel) :
    ∀ (n : Nat) (stack : List (Loc × Nat)) (P : List Loc)
      (acc : Finset Selector),
    (stack.map fun e => sizeOf e.1.tree).sum ≤ n →
    (∀ e ∈ stack, e.2 ≤ P.length ∧ P.take e.2 = ancestorPath e.1) →
    List.Pairwise (fun x y => y.2 ≤ x.2) stack →
    traverse hsh (buildRuleSet (sels.map (mkRule hsh))) stack
        (pathBloom hsh P) acc
      = acc ∪ (sels.filter
          (fun s => stack.any (fun e => anyElementMatches s e.1))).toFinset := by
  intro n
  induction n with
  | zero =>
      intro stack P acc hsum hinv hpw
      match stack with
      | [] =>
          rw [traverse]
          ext x
          simp
      | (l, d) :: stk =>
          exfalso
          simp only [List.map_cons, List.sum_cons] at hsum
          have hpos : 0 < sizeOf l.tree := by
            rcases l.tree with ⟨d0, cs0⟩
            simp only [DomTree.node.sizeOf_spec]
            omega
          omega
  | succ n ih =>
      intro stack P acc hsum hinv hpw
      match stack with
      | [] =>
          rw [traverse]
          ext x
          simp
      | (l, d) :: stk =>
          obtain ⟨hdlen0, htake0⟩ := hinv (l, d) (List.mem_cons_self _ _)
          have hdlen : d ≤ P.length := hdlen0
          have htake : P.take d = ancestorPath l := htake0
          have hd_eq : d = (ancestorPath l).length := by
            have hlen : (P.take d).length = d := by
              rw [List.length_take]
              omega
            rw [htake] at hlen
            omega
          simp only [traverse]
          rw [popToDepth_pathBloom, htake, matchingSelectors_eq hkeys l,
            ← pathBloom_append]
          have hd2 : (pathBloom hsh (ancestorPath l ++ [l])).elements.length
              = (ancestorPath l).length + 1 := by
            rw [pathBloom_elements_length]
            simp
          rw [hd2]
          set d2 := (ancestorPath l).length + 1 with hd2def
          have hsum' : (((childLocs l).reverse.map (fun c => (c, d2)) ++ stk).map
              (fun e => sizeOf e.1.tree)).sum ≤ n := by
            simp only [List.map_append, List.map_map, List.sum_append,
              List.map_cons, List.sum_cons] at hsum ⊢
            have hlt := childLocs_tree_sum_lt l
            have he : (List.map ((fun (e : Loc × Nat) => sizeOf e.1.tree)
                ∘ (fun c => (c, d2))) (childLocs l).reverse).sum
                = ((childLocs l).map (fun c => sizeOf c.tree)).sum := by
              rw [show ((fun (e : Loc × Nat) => sizeOf e.1.tree)
                  ∘ (fun c => (c, d2))) = (fun c => sizeOf c.tree) from rfl]
              rw [List.map_reverse, List.sum_reverse]
            rw [he]
            omega
          have hinv' : ∀ e ∈ (childLocs l).reverse.map (fun c => (c, d2)) ++ stk,
              e.2 ≤ (ancestorPath l ++ [l]).length ∧
              (ancestorPath l ++ [l]).take e.2 = ancestorPath e.1 := by
            intro e he
            rcases List.mem_append.mp he with he | he
            · obtain ⟨c, hc, rfl⟩ := List.mem_map.mp he
              rw [List.mem_reverse] at hc
              constructor
              · simp [hd2def]
              · have := ancestorPath_child hc
                rw [this]
                rw [List.take_of_length_le]
                simp [hd2def]
            · have hy := List.rel_of_pairwise_cons hpw he
              obtain ⟨hylen, hytake⟩ := hinv e (List.mem_cons_of_mem _ he)
              constructor
              · simp
                omega
              · rw [List.take_append_of_le_length (by omega)]
                rw [← htake]
                rw [List.take_take]
                rw [Nat.min_eq_left (by omega)]
                exact hytake
          have hpw' : List.Pairwise (fun (x y : Loc × Nat) => y.2 ≤ x.2)
              ((childLocs l).reverse.map (fun c => (c, d2)) ++ stk) := by
            rw [List.pairwise_append]
            refine ⟨?_, (List.pairwise_cons.mp hpw).2, ?_⟩
            · rw [List.pairwise_map]
              exact List.pairwise_of_forall (fun _ _ => Nat.le_refl _)
            · intro x hx y hy
              obtain ⟨c, _, rfl⟩ := List.mem_map.mp hx
              have hyd := List.rel_of_pairwise_cons hpw hy
              simp only [hd2def]
              omega
          rw [ih _ _ _ hsum' hinv' hpw']
          ext x
          have hch : ((childLocs l).reverse.map (fun c => (c, d2))).any
              (fun e => anyElementMatches x e.1)
              = (childLocs l).any (fun c => anyElementMatches x c) := by
            have hmapany : ∀ (L : List Loc),
                (L.map (fun c => (c, d2))).any (fun e => anyElementMatches x e.1)
                  = L.any (fun c => anyElementMatches x c) := by
              intro L
              induction L with
              | nil => rfl
              | cons a t iha => simp only [List.map_cons, List.any_cons, iha]
            rw [hmapany, List.any_reverse]
          simp only [Finset.mem_union, List.mem_toFinset, List.mem_filter,
            List.any_cons, List.any_append, Bool.or_eq_true]
          rw [hch, anyElementMatches_unfold x l]
          simp only [Bool.or_eq_true]
          tauto

/-- **C2 (amended)**: for every DOM tree and every list of compiled
selectors in which each selector whose key selector is a type selector has
an all-lowercase type name, the set of selectors returned by the rule-set
indexed, bloom-filter-assisted traversal `calculate_styles_for_tree` equals
the set of selectors for which at least one element of the tree matches
under the naive per-selector, per-element matching test. -/
theorem calculate_styles_for_tree_eq_naive (hsh : String → Nat) (root : Loc)
    (sels : List Selector) (hkeys : ∀ sel ∈ sels, keyLowerOK sel) :
    calculate_styles_for_tree hsh root sels
      = naiveMatchedSelectors sels root := by
  show traverse hsh (buildRuleSet (sels.map (mkRule hsh)))
      [(root, (rebuildBloom hsh root).elements.length)]
      (pathBloom hsh (ancestorPath root)) ∅ = naiveMatchedSelectors sels root
  have hlen : (rebuildBloom hsh root).elements.length
      = (ancestorPath root).length := pathBloom_elements_length hsh _
  rw [hlen]
  rw [traverse_spec hsh sels hkeys
    (([((root : Loc), (ancestorPath root).length)].map
        (fun e => sizeOf e.1.tree)).sum)
    [(root, (ancestorPath root).length)] (ancestorPath root) ∅
    (Nat.le_refl _)
    (by
      intro e he
      simp only [List.mem_singleton] at he
      subst he
      exact ⟨Nat.le_refl _, List.take_length _⟩)
    (List.pairwise_singleton _ _)]
  unfold naiveMatchedSelectors
  ext x
  simp

/-- Witness for C2 (amended) at a concrete document and selector list. -/
theorem calculate_styles_for_tree_eq_naive_witness :
    calculate_styles_for_tree (fun _ => 0)
        ⟨.node ⟨true, "body", [], []⟩ [], []⟩ [⟨[.id "x"], []⟩]
      = naiveMatchedSelectors [⟨[.id "x"], []⟩]
          ⟨.node ⟨true, "body", [], []⟩ [], []⟩ :=
  calculate_styles_for_tree_eq_naive (fun _ => 0)
    ⟨.node ⟨true, "body", [], []⟩ [], []⟩ [⟨[.id "x"], []⟩]
    (by
      intro sel hsel
      simp only [List.mem_singleton] at hsel
      subst hsel
      intro name lower hlast
      simp at hlast)

theorem traverse_empty_potential (hsh : String → Nat) (rs : RuleSet) :
    ∀ (n : Nat) (stack : List (Loc × Nat)) (bloom : StyleBloom ElemData)
      (acc : Finset Selector),
    (stack.map fun e => sizeOf e.1.tree).sum ≤ n →
    (∀ e ∈ stack, ∀ l ∈ subtreeLocs e.1,
      rs.get_potential_rules (Loc.data l) = []) →
    traverse hsh rs stack bloom acc = acc := by
  intro n
  induction n with
  | zero =>
      intro stack bloom acc hsum hpot
      match stack with
      | [] => rw [traverse]
      | (l, d) :: stk =>
          exfalso
          simp only [List.map_cons, List.sum_cons] at hsum
          have hpos : 0 < sizeOf l.tree := by
            rcases l.tree with ⟨d0, cs0⟩
            simp only [DomTree.node.sizeOf_spec]
            omega
          omega
  | succ n ih =>
      intro stack bloom acc hsum hpot
      match stack with
      | [] => rw [traverse]
      | (l, d) :: stk =>
          simp only [traverse]
          have hsubl : l ∈ subtreeLocs l := by
            rw [subtreeLocs_unfold]
            exact List.mem_cons_self _ _
          have hml : matchingSelectors rs l (popToDepth d bloom) = ∅ := by
            unfold matchingSelectors
            rw [hpot (l, d) (List.mem_cons_self _ _) l hsubl]
            rfl
          rw [hml, Finset.union_empty]
          apply ih
          · simp only [List.map_append, List.map_map, List.sum_append,
              List.map_cons, List.sum_cons] at hsum ⊢
            have hlt := childLocs_tree_sum_lt l
            have he : (List.map ((fun (e : Loc × Nat) => sizeOf e.1.tree)
                ∘ (fun c => (c, ((popToDepth d bloom).push (relevantHashes hsh)
                    (Loc.data l)).elements.length)))
                (childLocs l).reverse).sum
                = ((childLocs l).map (fun c => sizeOf c.tree)).sum := by
              rw [show ((fun (e : Loc × Nat) => sizeOf e.1.tree)
                  ∘ (fun c => (c, ((popToDepth d bloom).push (relevantHashes hsh)
                      (Loc.data l)).elements.length)))
                  = (fun c => sizeOf c.tree) from rfl]
              rw [List.map_reverse, List.sum_reverse]
            rw [he]
            omega
          · intro e he l' hl'
            rcases List.mem_append.mp he with he | he
            · obtain ⟨c, hc, rfl⟩ := List.mem_map.mp he
              rw [List.mem_reverse] at hc
              apply hpot (l, d) (List.mem_cons_self _ _)
              rw [subtreeLocs_unfold]
              exact List.mem_cons_of_mem _ (List.mem_flatMap.mpr ⟨c, hc, hl'⟩)
            · exact hpot e (List.mem_cons_of_mem _ he) l' hl'

/-- **C2** counterexample: the selector `clipPath` (type name not all
lowercase, as for case-preserved SVG tag names) matching a non-HTML-namespace
element with local name `clipPath` is found by the naive matcher but missed
by the indexed traversal: its rule is bucketed under the lowercased key
`"clippath"` while the lookup uses the element's local name `"clipPath"`. -/
theorem calculate_styles_missing_camelcase_tag :
    calculate_styles_for_tree (fun _ => 0)
        ⟨.node ⟨true, "body", [], []⟩
          [.node ⟨false, "clipPath", [], []⟩ []], []⟩
        [⟨[.tag "clipPath" "clippath"], []⟩]
      ≠ naiveMatchedSelectors [⟨[.tag "clipPath" "clippath"], []⟩]
          ⟨.node ⟨true, "body", [], []⟩
            [.node ⟨false, "clipPath", [], []⟩ []], []⟩ ∧
    calculate_styles_for_tree (fun _ => 0)
        ⟨.node ⟨true, "body", [], []⟩
          [.node ⟨false, "clipPath", [], []⟩ []], []⟩
        [⟨[.tag "clipPath" "clippath"], []⟩] = ∅ ∧
    naiveMatchedSelectors [⟨[.tag "clipPath" "clippath"], []⟩]
        ⟨.node ⟨true, "body", [], []⟩
          [.node ⟨false, "clipPath", [], []⟩ []], []⟩
      = {⟨[.tag "clipPath" "clippath"], []⟩} := by
  have hopt : calculate_styles_for_tree (fun _ => 0)
      ⟨.node ⟨true, "body", [], []⟩
        [.node ⟨false, "clipPath", [], []⟩ []], []⟩
      [⟨[.tag "clipPath" "clippath"], []⟩] = ∅ := by
    apply traverse_empty_potential (fun _ => 0)
      (buildRuleSet ([⟨[.tag "clipPath" "clippath"], []⟩].map
        (mkRule (fun _ => 0))))
      (([((⟨.node ⟨true, "body", [], []⟩
            [.node ⟨false, "clipPath", [], []⟩ []], []⟩ : Loc),
          (rebuildBloom (fun _ => 0)
            ⟨.node ⟨true, "body", [], []⟩
              [.node ⟨false, "clipPath", [], []⟩ []], []⟩).elements.length)].map
        (fun e => sizeOf e.1.tree)).sum)
      _ _ _ (Nat.le_refl _)
    intro e he l hl
    simp only [List.mem_singleton] at he
    subst he
    have hsl : subtreeLocs
        (⟨.node ⟨true, "body", [], []⟩
          [.node ⟨false, "clipPath", [], []⟩ []], []⟩ : Loc)
        = [⟨.node ⟨true, "body", [], []⟩
            [.node ⟨false, "clipPath", [], []⟩ []], []⟩,
           ⟨.node ⟨false, "clipPath", [], []⟩ [],
            [⟨⟨true, "body", [], []⟩, [], []⟩]⟩] := rfl
    rw [hsl] at hl
    simp only [List.mem_cons, List.not_mem_nil, or_false] at hl
    rcases hl with rfl | rfl
    · decide
    · decide
  have hnaive : naiveMatchedSelectors [⟨[.tag "clipPath" "clippath"], []⟩]
      ⟨.node ⟨true, "body", [], []⟩
        [.node ⟨false, "clipPath", [], []⟩ []], []⟩
      = {⟨[.tag "clipPath" "clippath"], []⟩} := by decide
  refine ⟨?_, hopt, hnaive⟩
  rw [hopt, hnaive]
  decide

end Critters
